import Mathlib

/-!
# TokyoGTFS — verification of the block/calendar/timetable core

Shallow embedding of the block-resolution, calendar-resolution, timetable
normalization and block-simplification logic of the TokyoGTFS repository
(files `static/rail/blocksolver.py`, `tokyo_gtfs/rail/generate_blocks.py`,
`tokyo_gtfs/rail/load_schedules.py`, `static/rail/providers/odpt.py`,
`static/rail/other.py`, `tokyo_gtfs/rail/simplify_blocks.py`), together with
theorems settling the spec claims about that logic.

Python dicts are embedded as association lists that keep insertion order,
Python lists as Lean lists, machine integers as `Int`/`Nat` (no overflow is
possible in the modelled code paths), and exceptions as `Except`/`Option`.
Unbounded loops and recursions are given explicit fuel; fuel exhaustion maps
to a distinguished error that the source would exhibit as nontermination or
unbounded recursion (never reached on the inputs of any theorem below).
-/

namespace TokyoGTFS

/-! ## Ordered-dictionary helpers (Python `dict` semantics)

`dictSet` replaces the value in place when the key exists (keeping its
position, as Python dicts do) and appends otherwise; `dictGet` is `dict.get`;
`dictDel` removes the first (only) entry with the key and is a no-op when the
key is absent (the source's `del` would raise `KeyError` there; no modelled
code path deletes an absent key). -/

def dictSet {K V : Type} [DecidableEq K] : List (K × V) → K → V → List (K × V)
  | [], k, v => [(k, v)]
  | p :: rest, k, v => if p.1 = k then (k, v) :: rest else p :: dictSet rest k v

def dictGet {K V : Type} [DecidableEq K] : List (K × V) → K → Option V
  | [], _ => none
  | p :: rest, k => if p.1 = k then some p.2 else dictGet rest k

def dictDel {K V : Type} [DecidableEq K] : List (K × V) → K → List (K × V)
  | [], _ => []
  | p :: rest, k => if p.1 = k then rest else p :: dictDel rest k

/-- `defaultdict(list)`: `d[k].append(x)` — append to the list under `k`,
materializing an empty list (at the end of the dict) when `k` is absent. -/
def dictAppend {K V : Type} [DecidableEq K] (d : List (K × List V)) (k : K)
    (x : V) : List (K × List V) :=
  match dictGet d k with
  | some l => dictSet d k (l ++ [x])
  | none => d ++ [(k, [x])]

/-- Character-level worker for `lastPart`: the segment after the last dot
(the accumulator is reset whenever a dot is crossed). -/
def lastPartAux : List Char → List Char → List Char
  | [], acc => acc.reverse
  | c :: rest, acc =>
    if c = '.' then lastPartAux rest [] else lastPartAux rest (c :: acc)

/-- `util.last_part`: `id.rpartition(".")[2]` — the text after the last dot,
or the whole string when there is no dot. -/
def lastPart (s : String) : String :=
  String.mk (lastPartAux s.data [])

/-! ## Data model (`static/rail/model.py`)

Only the fields consumed by the block solver are carried; the remaining
presentation-only fields of `model.Train` (`train_number`, `train_type`,
`train_name`, `direction`, `realtime_id`, `platform` strings) do not flow
into any modelled computation. -/

structure TrainTimetableEntry where
  station : String
  arrival : Int
  departure : Int
deriving DecidableEq

structure Train where
  id : String
  agency : String
  route : String
  calendar : String
  timetable : List TrainTimetableEntry
  destinations : List String
  origins : Option (List String) := none
  next_timetable : Option (List String) := none
  previous_timetable : Option (List String) := none
deriving DecidableEq

namespace BlockSolver

/-! ## `static/rail/blocksolver.py` -/

/-- `StopTimeHash` — the 4-tuple used to match one train's last station to
another train's first station. -/
structure StopTimeHash where
  calendar : String
  station : String
  destination : String
  time : Int
deriving DecidableEq

/-- Placeholder returned where the source would raise `IndexError` on an
empty (or one-entry, for `last_of_train`'s fallback) timetable; no theorem
below evaluates these out-of-range cases. -/
def dummyEntry : TrainTimetableEntry := ⟨"", 0, 0⟩

/-- `StopTimeHash.first_of_train`. -/
def StopTimeHash.firstOfTrain (train : Train) : StopTimeHash :=
  let first := train.timetable.headD dummyEntry
  ⟨train.calendar, lastPart first.station,
   ";".intercalate (train.destinations.map lastPart), first.arrival⟩

/-- `StopTimeHash.last_of_train`: takes the last timetable entry, falling
back to the second-to-last one when the last departure is negative. -/
def StopTimeHash.lastOfTrain (train : Train) : StopTimeHash :=
  let last := train.timetable.getLastD dummyEntry
  let last := if last.departure < 0
    then train.timetable.getD (train.timetable.length - 2) dummyEntry
    else last
  ⟨train.calendar, lastPart last.station,
   ";".intercalate (train.destinations.map lastPart), last.arrival⟩

/-- `TrainShort` — reduction of a `model.Train` to the data used for block
solving. `is_first` is `none` when the source feed declared no origins
(Python `Optional[bool] = None`). -/
structure TrainShort where
  id : String
  route : String
  calendar : String
  first_sta : StopTimeHash
  last_sta : StopTimeHash
  destinations : List String
  is_last : Bool
  origins : Option (List String) := none
  is_first : Option Bool := none
  prev : Option (List String) := none
  next : Option (List String) := none
deriving DecidableEq

/-- `TrainShort.from_model`. -/
def TrainShort.fromModel (train : Train) : TrainShort :=
  let isLast : Bool := decide
    ([(train.timetable.getLastD dummyEntry).station] = train.destinations)
  let isFirst : Option Bool := match train.origins with
    | some origins =>
        some (decide ([(train.timetable.headD dummyEntry).station] = origins))
    | none => none
  { id := train.id
    route := train.route
    calendar := train.calendar
    first_sta := StopTimeHash.firstOfTrain train
    last_sta := StopTimeHash.lastOfTrain train
    destinations := train.destinations.map lastPart
    is_last := isLast
    origins := match train.origins with
      | some origins => if origins = [] then none else some (origins.map lastPart)
      | none => none
    is_first := isFirst
    prev := train.previous_timetable
    next := train.next_timetable }

/-- The mutable state of a `BlockSolver` instance. `groupPrefix` is the
constructor argument used to scope block ids. -/
structure Solver where
  groupPrefix : String
  trains_by_id : List (String × TrainShort) := []
  trains_by_first_sta : List (StopTimeHash × List String) := []
  trains_by_last_sta : List (StopTimeHash × List String) := []
  block_id : Nat := 1
  blocks : List (String × List Nat) := []
deriving DecidableEq

/-- `BlockSolver.__init__(prefix)`. -/
def Solver.init (groupPrefix : String) : Solver := { groupPrefix := groupPrefix }

/-- `BlockSolver.add_train`: skips self-contained trains (`is_first` truthy
and `is_last`), stores the rest by id, and indexes by first/last stop-time
hash only when the timetable has more than one entry. -/
def addTrain (solver : Solver) (train : Train) : Solver :=
  let short := TrainShort.fromModel train
  if short.is_first.getD false && short.is_last then solver
  else
    let solver :=
      { solver with trains_by_id := dictSet solver.trains_by_id short.id short }
    if train.timetable.length > 1 then
      { solver with
        trains_by_first_sta := dictAppend solver.trains_by_first_sta short.first_sta short.id
        trains_by_last_sta := dictAppend solver.trains_by_last_sta short.last_sta short.id }
    else solver

/-- One half of `BlockSolver.drop_train`: the defaultdict access
`self.trains_by_first_sta[train.first_sta]` materializes an empty entry when
the key is absent; a one-element entry is deleted outright, otherwise the
train id is removed from the list (`ValueError` from `list.remove` is
swallowed, i.e. a missing id leaves the list unchanged). -/
def dropIdx (idx : List (StopTimeHash × List String)) (k : StopTimeHash)
    (id : String) : List (StopTimeHash × List String) :=
  let cur := (dictGet idx k).getD []
  let idx := match dictGet idx k with
    | some _ => idx
    | none => idx ++ [(k, [])]
  if cur.length = 1 then dictDel idx k
  else dictSet idx k (cur.erase id)

/-- `BlockSolver.drop_train`. -/
def dropTrain (solver : Solver) (train : TrainShort) : Solver :=
  { solver with
    trains_by_id := dictDel solver.trains_by_id train.id
    trains_by_first_sta := dropIdx solver.trains_by_first_sta train.first_sta train.id
    trains_by_last_sta := dropIdx solver.trains_by_last_sta train.last_sta train.id }

/-- Warnings the solver logs without interrupting control flow. -/
inductive Warn where
  | multipleHashes (id : String) (forward : Bool)
  | brokenReference (id1 : String) (forward : Bool) (id2 : String)
deriving DecidableEq

/-- `BlockSolver.previous_trains`: explicit `prev` list preferred; otherwise
a unique last-stop-signature match; multiple signature matches warn and
resolve to no match. (The commented-out fallback mechanism of the source is
omitted, exactly as it is disabled there.) -/
def previousTrains (solver : Solver) (train : TrainShort) :
    List Warn × List String :=
  if train.is_first.getD false then ([], [])
  else
    let hashes := dictGet solver.trains_by_last_sta train.first_sta
    match train.prev with
    | some declared => ([], declared)
    | none =>
      match hashes with
      | some hs =>
        if hs = [] then ([], [])
        else if hs.length > 1 then ([Warn.multipleHashes train.id false], [])
        else ([], hs)
      | none => ([], [])

/-- `BlockSolver.next_trains` — mirror of `previousTrains`. -/
def nextTrains (solver : Solver) (train : TrainShort) :
    List Warn × List String :=
  if train.is_last then ([], [])
  else
    let hashes := dictGet solver.trains_by_first_sta train.last_sta
    match train.next with
    | some declared => ([], declared)
    | none =>
      match hashes with
      | some hs =>
        if hs = [] then ([], [])
        else if hs.length > 1 then ([Warn.multipleHashes train.id true], [])
        else ([], hs)
      | none => ([], [])

/-- A node of the expansion graph (`BlockNode` of the source): the wrapped
train plus its resolved edges, stored as trip-id lists in append order. The
graph doubles as the `visited` dict — a Python `BlockNode` becomes reachable
for further mutation exactly when `expand_previous`/`expand_next` insert it
into `visited` as their first statement. -/
structure GNode where
  train : TrainShort
  prev : List String := []
  next : List String := []
deriving DecidableEq

abbrev Graph := List (String × GNode)

/-- Errors that abort solving a component (`BlockError` in the source).
`fuelOut` stands for recursion the source performs unboundedly. -/
inductive BErr where
  | circular (around target : String)
  | tooMany (seed : String) (splits merges : Nat)
  | fuelOut
deriving DecidableEq

/-- `node.next.append(new_node)` resp. `node.prev.append(new_node)`. -/
def appendEdge (g : Graph) (id : String) (forward : Bool) (other : String) :
    Graph :=
  match dictGet g id with
  | none => g
  | some n =>
    if forward then dictSet g id { n with next := n.next ++ [other] }
    else dictSet g id { n with prev := n.prev ++ [other] }

/-- The two mutually recursive activities of the expansion pass: entering a
node (`expand_next`/`expand_previous` with `forward` selecting the
direction) and working through that node's candidate list (their shared
`for` loop). -/
inductive ExpandCall where
  | node (id : String) (train : TrainShort) (initPrev initNext : List String)
      (forward : Bool) (ignore : String)
  | loop (id : String) (cands : List String) (forward : Bool) (ignore : String)
deriving DecidableEq

/-- `BlockSolver.expand_next` (with `forward = true`) and
`BlockSolver.expand_previous` (with `forward = false`), folded into one
fuel-indexed step function exactly as the two source functions mirror each
other. `initPrev`/`initNext` are the edges the caller constructed the fresh
`BlockNode` with; when the node is already in `visited`, the re-assignment
`visited[node.train.id] = node` changes nothing, hence the `dictGet` guard.
The `.loop` case skips the `ignore_train`, raises on circular references,
skips broken references with a warning, and otherwise links the new node
and recurses into it in both directions. -/
def expandStep (solver : Solver) : Nat → ExpandCall → Graph → Except BErr Graph
  | 0, _, _ => .error .fuelOut
  | fuel + 1, .node id train initPrev initNext forward ignore, g =>
    let g := match dictGet g id with
      | some _ => g
      | none => dictSet g id { train := train, prev := initPrev, next := initNext }
    let cands := if forward then (nextTrains solver train).2
      else (previousTrains solver train).2
    expandStep solver fuel (.loop id cands forward ignore) g
  | _ + 1, .loop _ [] _ _, g => .ok g
  | fuel + 1, .loop id (cid :: rest) forward ignore, g =>
    if cid = ignore then expandStep solver fuel (.loop id rest forward ignore) g
    else if (dictGet g cid).isSome then .error (.circular id cid)
    else
      match dictGet solver.trains_by_id cid with
      | none => expandStep solver fuel (.loop id rest forward ignore) g
      | some t =>
        let g := appendEdge g id forward cid
        match expandStep solver fuel
            (.node cid t (if forward then [id] else [])
              (if forward then [] else [id]) forward "") g with
        | .error e => .error e
        | .ok g =>
          match expandStep solver fuel (.node cid t [] [] (!forward) id) g with
          | .error e => .error e
          | .ok g => expandStep solver fuel (.loop id rest forward ignore) g

/-- Entry point matching one call of `expand_previous`/`expand_next`. -/
def expandDir (solver : Solver) (fuel : Nat) (g : Graph) (id : String)
    (train : TrainShort) (initPrev initNext : List String) (forward : Bool)
    (ignore : String) : Except BErr Graph :=
  expandStep solver fuel (.node id train initPrev initNext forward ignore) g

/-- The node id an `ExpandCall` works on. -/
def ExpandCall.rootId : ExpandCall → String
  | .node id _ _ _ _ _ => id
  | .loop id _ _ _ => id

/-- `BlockNode.blocks_up_to`: all chains of nodes ending in `id`, following
`prev` edges; each recursion level appends `id` to every found chain. The
graph built by `expandDir` is cycle-free, so the fuel (always called with
more fuel than there are nodes) never runs out in a completed expansion. -/
def blocksUpTo (g : Graph) : Nat → String → List (List String)
  | 0, _ => []
  | fuel + 1, id =>
    match dictGet g id with
    | none => []
    | some n =>
      let blocks := if n.prev = [] then [[]]
        else n.prev.foldl (fun acc pid => acc ++ blocksUpTo g fuel pid) []
      blocks.map (fun b => b ++ [id])

/-- `BlockSolver.solve_train`. Returns the updated solver together with the
list of blocks assigned in this call (each block a list of trip ids in
order) — the source materializes exactly these lists in its assignment loop.
The seed train is expanded backward then forward; singletons are dropped
without a block; after dropping every visited train the (miswritten)
topology check `splits > 2 or splits > 2 or (merges > 1 and splits > 1)`
may raise; otherwise each chain ending at a next-less node becomes a block
with an incrementing id. -/
def solveTrain (solver : Solver) (fuel : Nat) (train : TrainShort) :
    Except BErr (Solver × List (List String)) :=
  match expandDir solver fuel [] train.id train [] [] false "" with
  | .error e => .error e
  | .ok g =>
  match expandDir solver fuel g train.id train [] [] true "" with
  | .error e => .error e
  | .ok g =>
    if g.length < 2 then .ok (dropTrain solver train, [])
    else
      let solver := g.foldl (fun s p => dropTrain s p.2.train) solver
      let lastTrains := g.filter (fun p => p.2.next = [])
      let splits := (g.filter (fun p => p.2.next.length > 1)).length
      let merges := (g.filter (fun p => p.2.prev.length > 1)).length
      if splits > 2 ∨ splits > 2 ∨ (merges > 1 ∧ splits > 1) then
        .error (.tooMany train.id splits merges)
      else
        let assigned := lastTrains.foldl
          (fun acc p => acc ++ blocksUpTo g (g.length + 1) p.1) []
        let st := assigned.foldl
          (fun (st : List (String × List Nat) × Nat) block =>
            (block.foldl (fun m tid => dictAppend m tid st.2) st.1, st.2 + 1))
          (solver.blocks, solver.block_id)
        .ok ({ solver with blocks := st.1, block_id := st.2 }, assigned)

/-- `BlockSolver.solve`: repeatedly solve the first remaining train. The
fuel bounds the number of loop iterations (the source's loop terminates
because every `solve_train` call drops at least the seed train). -/
def solveLoop (solver : Solver) : Nat → Except BErr (Solver × List (List String))
  | 0 => if solver.trains_by_id.isEmpty then .ok (solver, []) else .error .fuelOut
  | fuel + 1 =>
    match solver.trains_by_id with
    | [] => .ok (solver, [])
    | (_, t) :: _ =>
      match solveTrain solver (8 * (solver.trains_by_id.length + 1)) t with
      | .error e => .error e
      | .ok (solver, assigned) =>
        match solveLoop solver fuel with
        | .error e => .error e
        | .ok (solver, rest) => .ok (solver, assigned ++ rest)

/-- `BlockSolver.get_block`: format every assigned block number with the
group prefix; unknown trips get no block. -/
def getBlock (solver : Solver) (id : String) : List String :=
  match dictGet solver.blocks id with
  | some l => l.map (fun n => solver.groupPrefix ++ "." ++ toString n)
  | none => []

end BlockSolver

namespace LoadSchedules

/-! ## `tokyo_gtfs/rail/load_schedules.py`, stop-time creation
(`LoadSchedules.load_train_timetable`, lines 332–354)

A timetable entry is carried as `(arrival?, departure?)` in seconds —
the result of `_parse_time` on the `"H:MM"` strings (`none` for a missing
or empty field); the split-and-multiply of `_parse_time` itself is a
trivial bijection on well-formed fields. -/

def PREVIOUS_DAY_CUTOFF : Nat := 3 * 3600

def DAY : Nat := 86400

/-- The `for idx, j in enumerate(i["tt"])` loop: entries with no time at
all are skipped (still consuming their index); otherwise the missing side
is substituted with the other, the arrival gains 24h when before the 03:00
cutoff *or before `previous_dep`*, and the departure gains 24h when before
its own arrival. `previous_dep` is initialized to 0 before the loop and —
exactly as in the source — never reassigned, so it stays 0 throughout. -/
def loadStopTimesGo (previous_dep : Nat) :
    Nat → List (Option Nat × Option Nat) → List (Nat × Nat × Nat)
  | _, [] => []
  | idx, (arr_s, dep_s) :: rest =>
    match arr_s, dep_s with
    | none, none => loadStopTimesGo previous_dep (idx + 1) rest
    | _, _ =>
      let arr := arr_s.getD (dep_s.getD 0)
      let dep := dep_s.getD (arr_s.getD 0)
      let arr := if arr < PREVIOUS_DAY_CUTOFF ∨ arr < previous_dep
        then arr + DAY else arr
      let dep := if dep < arr then dep + DAY else dep
      (idx, arr, dep) :: loadStopTimesGo previous_dep (idx + 1) rest

/-- The stop times created for one trip: `(stop_sequence, arrival,
departure)` triples. -/
def loadStopTimes (tt : List (Option Nat × Option Nat)) :
    List (Nat × Nat × Nat) :=
  loadStopTimesGo 0 0 tt

end LoadSchedules

namespace Odpt

/-! ## `static/rail/providers/odpt.py`, timetable conversion
(`ODPTProvider.trains`, lines 176–196)

Entries are `(arrival, departure)` as returned by `get_arr_dep_times`:
seconds, with `-1` standing for an entry with neither time. -/

/-- `while x < threshold: x += 86400`. -/
def rollForward (threshold : Int) (x : Int) : Int :=
  if x < threshold then rollForward threshold (x + 86400) else x
termination_by (threshold - x).toNat
decreasing_by omega

/-- The "fix midnight timetravel" loop: entries with both times
non-negative are rolled forward past the previous departure (arrival) and
past the arrival (departure), updating `prev_dep`; entries with a missing
time are appended unchanged and do not advance `prev_dep`. -/
def fixTimetable (prev_dep : Int) : List (Int × Int) → List (Int × Int)
  | [] => []
  | (arr, dep) :: rest =>
    if arr ≥ 0 ∧ dep ≥ 0 then
      let arr := rollForward prev_dep arr
      let dep := rollForward arr dep
      (arr, dep) :: fixTimetable dep rest
    else (arr, dep) :: fixTimetable prev_dep rest

end Odpt

namespace CalendarHandler

/-! ## `static/rail/other.py`, `CalendarHandler`

Dates are embedded as day ordinals counted from an (arbitrary) Monday, so
`date.weekday()` becomes `d % 7` (Monday = 0 … Sunday = 6). Python's
unordered set intersection is embedded as a filter — every claim below is
about membership, never order. -/

/-- `self.built_ins_priority` (`-1` is the bucket for public holidays). -/
def built_ins_priority (weekday : Int) : List String :=
  if weekday = -1 then ["Holiday", "SaturdayHoliday", "Everyday"]
  else if weekday = 0 then ["Monday", "Weekday", "Everyday"]
  else if weekday = 1 then ["Tuesday", "Weekday", "Everyday"]
  else if weekday = 2 then ["Wednesday", "Weekday", "Everyday"]
  else if weekday = 3 then ["Thursday", "Weekday", "Everyday"]
  else if weekday = 4 then ["Friday", "Weekday", "Everyday"]
  else if weekday = 5 then ["Saturday", "SaturdayHoliday", "Everyday"]
  else if weekday = 6 then ["Sunday", "Holiday", "SaturdayHoliday", "Everyday"]
  else []

/-- `weekday = -1 if working_date in self.holidays else
working_date.weekday()`. -/
def effectiveWeekday (holidays : List Nat) (d : Nat) : Int :=
  if d ∈ holidays then -1 else ((d % 7 : Nat) : Int)

/-- The body of `CalendarHandler.export` for one route's used-calendar set
and one date: the list of active service calendar names. Used specific
calendars for the date win outright when any exist; otherwise the first
builtin of the bucket's priority list that the route uses. -/
def activeServices (calendars_used : List String) (holidays : List Nat)
    (special : List (Nat × List String)) (working_date : Nat) : List String :=
  let weekday := effectiveWeekday holidays working_date
  let builtin :=
    match (built_ins_priority weekday).find?
        (fun c => decide (c ∈ calendars_used)) with
    | some c => [c]
    | none => []
  match dictGet special working_date with
  | some sp =>
    let special_calendars := sp.filter (fun c => decide (c ∈ calendars_used))
    if special_calendars ≠ [] then special_calendars else builtin
  | none => builtin

/-- `CalendarHandler.export`: one `(service_id, date)` row per active
service per date in `[startD, endD]` per used route. -/
def exportDates (used : List (String × List String)) (holidays : List Nat)
    (special : List (Nat × List String)) (startD endD : Nat) :
    List (String × Nat) :=
  used.foldl
    (fun acc p =>
      acc ++ (List.range' startD (endD + 1 - startD)).foldl
        (fun acc2 d =>
          acc2 ++ (activeServices p.2 holidays special d).map
            (fun c => (p.1 ++ "." ++ c, d)))
        [])
    []

end CalendarHandler

namespace SimplifyBlocks

/-! ## `tokyo_gtfs/rail/simplify_blocks.py`

The trips table is embedded block-wise: the state is a list of groups
`(block_id?, trips)`, one group per distinct `block_id` (`none` for a
cleared id); trips of different blocks are disjoint, so the per-block
processing of `execute` becomes a map over the groups. A `(block, route)`
pair qualifying twice in `find_blocks_to_merge` makes the source re-run
`merge_consecutive_trips_in_block` on an already-merged block — a no-op
(this file proves merging is idempotent per block), embedded as one
processing per selected block. Translation rows are not modelled. -/

structure StopTime where
  stop_id : String
  stop_sequence : Nat
  arrival_time : Nat
  departure_time : Nat
deriving DecidableEq

structure Trip where
  id : String
  route_id : String
  calendar_id : String
  short_name : String
  headsign : String
deriving DecidableEq

/-- `TripWithTimes`: trip plus its stop times, carried in stop-sequence
order (the retrieval sorts by `stop_sequence`). -/
structure TripWithTimes where
  trip : Trip
  times : List StopTime
deriving DecidableEq

def dummyStopTime : StopTime := ⟨"", 0, 0, 0⟩

def dummyTrip : TripWithTimes := ⟨⟨"", "", "", "", ""⟩, []⟩

/-- `TripWithTimes.first_time` (`times[0].arrival_time`; the source raises
`IndexError` on an empty list — never reached under the theorems'
nonempty-times hypothesis). -/
def first_time (t : TripWithTimes) : Nat :=
  (t.times.headD dummyStopTime).arrival_time

/-- `BlockWithTrips.retrieve` sorts the block's trips by `first_time`
(Python's stable sort). -/
def sortTrips (trips : List TripWithTimes) : List TripWithTimes :=
  trips.insertionSort (fun a b => first_time a ≤ first_time b)

def PREFERRED_BASE_ROUTES : List String :=
  ["JR-East.Yokosuka.", "JR-East.Tsurumi.", "JR-East.Musashino.",
   "Tobu.TobuSkytree."]

/-- `a.startswith(p)` over the underlying characters. -/
def prefAux : List Char → List Char → Bool
  | [], _ => true
  | _ :: _, [] => false
  | a :: as, b :: bs => a = b && prefAux as bs

def strStartsWith (s p : String) : Bool := prefAux p.data s.data

/-- `sub in s` (substring containment) over the underlying characters. -/
def containsAux (needle : List Char) : List Char → Bool
  | [] => prefAux needle []
  | c :: rest => prefAux needle (c :: rest) || containsAux needle rest

def strContains (s sub : String) : Bool := containsAux sub.data s.data

/-- `score_base_candidate`. -/
def score_base_candidate (t : TripWithTimes) : Nat × String :=
  if strStartsWith t.trip.id "JR-East.ShonanShinjuku." then (4, t.trip.id)
  else if PREFERRED_BASE_ROUTES.any (fun p => strStartsWith t.trip.id p) then
    (3, t.trip.id)
  else if ¬strContains t.trip.id "Branch" then (2, t.trip.id)
  else (1, t.trip.id)

/-- Python tuple comparison `(int, str) > (int, str)`. -/
def scoreGt (a b : Nat × String) : Bool :=
  b.1 < a.1 || (a.1 = b.1 && b.2 < a.2)

/-- `max(trips, key=score_base_candidate)` — the first element attaining
the maximum. -/
def maxByScore : TripWithTimes → List TripWithTimes → TripWithTimes
  | best, [] => best
  | best, t :: rest =>
    maxByScore (if scoreGt (score_base_candidate t)
      (score_base_candidate best) then t else best) rest

/-- `same_stop`: stop-id stems (text after the last dot) are equal. -/
def same_stop (a b : String) : Bool := decide (lastPart a = lastPart b)

/-- `get_merged_stop_times`: walk all stop-times; consecutive entries at
the same stop collapse into one keeping the earlier arrival, the later
entry's other attributes, and the first entry's sequence number; sequence
numbers are renumbered contiguously. -/
def mergeGo : Option StopTime → Nat → List StopTime → List StopTime
  | combined, _, [] =>
    match combined with
    | some c => [c]
    | none => []
  | combined, idx, incoming :: rest =>
    match combined with
    | none => mergeGo (some { incoming with stop_sequence := idx }) (idx + 1) rest
    | some c =>
      if same_stop c.stop_id incoming.stop_id then
        mergeGo (some { incoming with stop_sequence := c.stop_sequence, arrival_time := c.arrival_time }) idx rest
      else
        c :: mergeGo (some { incoming with stop_sequence := idx }) (idx + 1) rest

def get_merged_stop_times (trips : List TripWithTimes) : List StopTime :=
  mergeGo none 0 (trips.map (fun t => t.times)).flatten

/-- `merge_trips`: the highest-scoring trip becomes the base and receives
the merged stop times; the other trips are dropped. -/
def merge_trips : List TripWithTimes → TripWithTimes
  | [] => dummyTrip
  | t :: rest =>
    let base := maxByScore t rest
    { trip := base.trip, times := get_merged_stop_times (t :: rest) }

/-- `itertools.groupby(block.trips, key=trip.route_id)`: maximal runs of
consecutive trips sharing a route id. -/
def splitRuns : List TripWithTimes → List (List TripWithTimes)
  | [] => []
  | t :: rest =>
    match splitRuns rest with
    | [] => [[t]]
    | [] :: gs => [t] :: gs
    | (u :: g) :: gs =>
      if t.trip.route_id = u.trip.route_id then (t :: u :: g) :: gs
      else [t] :: (u :: g) :: gs

/-- One run of `merge_consecutive_trips_in_block`: merged when longer than
one trip, untouched otherwise. -/
def collapseRun (g : List TripWithTimes) : TripWithTimes :=
  if g.length > 1 then merge_trips g else g.headD dummyTrip

/-- `merge_consecutive_trips_in_block` on an already-sorted trip list:
runs longer than one trip are merged, others stay. -/
def mergeBlockTrips (trips : List TripWithTimes) : List TripWithTimes :=
  (splitRuns trips).map collapseRun

/-- The `find_blocks_to_merge` criterion for one block: some route appears
more than once with a single distinct calendar, and either a single
distinct (short_name, headsign) pair or an allow-listed route. -/
def selectBlock (trips : List TripWithTimes) : Bool :=
  (trips.map (fun t => t.trip.route_id)).any (fun r =>
    let g := trips.filter (fun t => t.trip.route_id = r)
    g.length > 1 &&
      (g.map (fun t => t.trip.calendar_id)).dedup.length = 1 &&
      (((g.map (fun t => t.trip.short_name)).dedup.length = 1 &&
        (g.map (fun t => t.trip.headsign)).dedup.length = 1) ||
        (r = "JR-East.NaritaExpress" || r = "JR-East.Musashino")))

/-- The per-block body of `execute`: retrieve (sorted by first time) and
merge, for selected blocks only. -/
def mergeStep (b : Option String × List TripWithTimes) :
    Option String × List TripWithTimes :=
  if b.1.isSome ∧ selectBlock b.2 then (b.1, mergeBlockTrips (sortTrips b.2))
  else b

/-- `remove_blocks_with_one_trip`: clear the block id of a one-trip
block. -/
def removeStep (b : Option String × List TripWithTimes) :
    Option String × List TripWithTimes :=
  if b.1.isSome ∧ b.2.length = 1 then (none, b.2) else b

/-- One run of the `SimplifyBlocks` task over the block-wise state: merge
the selected blocks, then clear the block id of every one-trip block. -/
def runPass (st : List (Option String × List TripWithTimes)) :
    List (Option String × List TripWithTimes) :=
  (st.map mergeStep).map removeStep


/-- A concrete block: two trips of route `r` separated by one trip of
route `q`, all sharing calendar, short name and headsign. -/
def cexTripA1 : TripWithTimes :=
  ⟨⟨"t1", "r", "cal", "sn", "hs"⟩, [⟨"st1", 0, 0, 0⟩, ⟨"st2", 1, 100, 100⟩]⟩

def cexTripB : TripWithTimes :=
  ⟨⟨"t2", "q", "cal", "sn", "hs"⟩, [⟨"st2", 0, 200, 200⟩, ⟨"st3", 1, 300, 300⟩]⟩

def cexTripA2 : TripWithTimes :=
  ⟨⟨"t3", "r", "cal", "sn", "hs"⟩, [⟨"st3", 0, 400, 400⟩, ⟨"st4", 1, 500, 500⟩]⟩

def cexState : List (Option String × List TripWithTimes) :=
  [(some "b", [cexTripA1, cexTripB, cexTripA2])]

end SimplifyBlocks

/-! ## Concrete scenarios used by the claims about `BlockSolver` -/

namespace BlockSolver

/-- Signature shared by the ambiguity scenarios. -/
def ambHash : StopTimeHash := ⟨"Weekday", "s2", "d", 100⟩

def ambHashPrev : StopTimeHash := ⟨"Weekday", "s1", "d", 50⟩

/-- A train flagged `is_last` whose last-stop signature has two candidate
continuations in the index. -/
def ambLastTrain : TrainShort :=
  { id := "t", route := "r", calendar := "Weekday", first_sta := ambHashPrev,
    last_sta := ambHash, destinations := ["d"], is_last := true }

/-- The same train, not flagged `is_last`/`is_first`. -/
def ambMidTrain : TrainShort :=
  { id := "t", route := "r", calendar := "Weekday", first_sta := ambHashPrev,
    last_sta := ambHash, destinations := ["d"], is_last := false }

/-- A solver whose signature indices hold two candidates for `ambHash` /
`ambHashPrev`. -/
def ambSolver : Solver :=
  { groupPrefix := "g",
    trains_by_first_sta := [(ambHash, ["x", "y"])],
    trains_by_last_sta := [(ambHashPrev, ["u", "v"])] }

/-- A train flagged `is_last` that nevertheless declares an explicit next
list (its timetable ends at its declared destination, but the feed still
declares a continuation). -/
def lastWithNext : TrainShort :=
  { id := "t", route := "r", calendar := "Weekday", first_sta := ambHashPrev,
    last_sta := ambHash, destinations := ["d"], is_last := true,
    next := some ["x"] }

/-- An unflagged train with explicit links in both directions. -/
def midWithLinks : TrainShort :=
  { id := "t", route := "r", calendar := "Weekday", first_sta := ambHashPrev,
    last_sta := ambHash, destinations := ["d"], is_last := false,
    prev := some ["p"], next := some ["x", "y"] }

/-- Train `A(id=1, next=[2])` of the two-train chain scenario; its stop
times and destination are chosen so that it is not self-contained and no
stop-time-hash signatures coincide. -/
def chainTrainA : Train :=
  { id := "1", agency := "ag", route := "r", calendar := "Weekday",
    timetable := [⟨"s1", 100, 100⟩, ⟨"s2", 200, 200⟩],
    destinations := ["s9"], next_timetable := some ["2"] }

/-- Train `B(id=2, prev=[1], next=[])` of the two-train chain scenario. -/
def chainTrainB : Train :=
  { id := "2", agency := "ag", route := "r", calendar := "Weekday",
    timetable := [⟨"s2", 300, 300⟩, ⟨"s3", 400, 400⟩],
    destinations := ["s9"], next_timetable := some ([] : List String),
    previous_timetable := some ["1"] }

/-- The solver primed with the two-train chain. -/
def chainSolver : Solver :=
  addTrain (addTrain (Solver.init "g") chainTrainA) chainTrainB

/-- A component with two independent split forks, declared through explicit
links: `1 → 2 → {3, 4}` and `4 → {5, 6}`. -/
def forkTrain (id : String) (staA staB : String) (t : Int)
    (prev next : List String) : Train :=
  { id := id, agency := "ag", route := "r", calendar := "Weekday",
    timetable := [⟨staA, t, t⟩, ⟨staB, t + 1, t + 1⟩],
    destinations := ["zz"],
    next_timetable := some next, previous_timetable := some prev }

def twoSplitSolver : Solver :=
  [forkTrain "1" "a1" "b1" 10 [] ["2"],
   forkTrain "2" "a2" "b2" 20 ["1"] ["3", "4"],
   forkTrain "3" "a3" "b3" 30 ["2"] [],
   forkTrain "4" "a4" "b4" 40 ["2"] ["5", "6"],
   forkTrain "5" "a5" "b5" 50 ["4"] [],
   forkTrain "6" "a6" "b6" 60 ["4"] []].foldl addTrain (Solver.init "g")

/-- A fully self-contained train: its timetable starts at its declared
origin and ends at its declared destination. -/
def selfContainedTrain : Train :=
  { id := "sc", agency := "ag", route := "r", calendar := "Weekday",
    timetable := [⟨"o", 0, 0⟩, ⟨"d", 10, 10⟩],
    destinations := ["d"], origins := some ["o"] }

end BlockSolver

namespace GenBlocks

/-! ## `tokyo_gtfs/rail/generate_blocks.py`

The task's node dict maps `trip_id` to its `BlockNode`; since
`retrieve_all_nodes` keys each node by its own `trip_id`, the dict is
embedded as an insertion-ordered list of nodes, keyed by their `trip_id`
field. -/

structure BlockNode where
  trip_id : String
  destinations : List String
  previous : List String
  next : List String
  clone_with_suffix : String := ""
deriving DecidableEq

abbrev Nodes := List BlockNode

/-- Placeholder where the source would raise `IndexError` (`[-1]`/`[0]` on
an empty list); never reached under the hypotheses of any theorem below. -/
def dummyNode : BlockNode := ⟨"", [], [], [], ""⟩

/-- `nodes.get(id)`. -/
def lookup : Nodes → String → Option BlockNode
  | [], _ => none
  | n :: rest, id => if n.trip_id = id then some n else lookup rest id

/-- Per-node form of `setDir`. -/
def setDirFn (id : String) (forward : Bool) (l : List String)
    (n : BlockNode) : BlockNode :=
  if n.trip_id = id then
    if forward then { n with next := l } else { n with previous := l }
  else n

/-- `setattr(n, self_attr, fixed)` for the node with the given id. -/
def setDir (nodes : Nodes) (id : String) (forward : Bool) (l : List String) :
    Nodes :=
  nodes.map (setDirFn id forward l)

/-- Per-node form of `appendOther`. -/
def appendOtherFn (id : String) (forward : Bool) (x : String)
    (n : BlockNode) : BlockNode :=
  if n.trip_id = id then
    if forward then
      (if x ∈ n.previous then n else { n with previous := n.previous ++ [x] })
    else
      (if x ∈ n.next then n else { n with next := n.next ++ [x] })
  else n

/-- `if id not in getattr(linked, other_attr): getattr(linked, other_attr)
.append(id)` — append `x` to the opposite-direction list of node `id` when
missing. -/
def appendOther (nodes : Nodes) (id : String) (forward : Bool) (x : String) :
    Nodes :=
  nodes.map (appendOtherFn id forward x)

/-- The `for linked_id in getattr(n, self_attr)` loop of
`_fix_node_link_consistency`: links to existing nodes get the reverse link
appended (when missing) and are collected into `fixed`; links to missing
nodes are dropped with an error log. -/
def fixLoop (id : String) (forward : Bool) :
    List String → Nodes × List String → Nodes × List String
  | [], acc => acc
  | linked_id :: rest, acc =>
    if (lookup acc.1 linked_id).isSome then
      fixLoop id forward rest
        (appendOther acc.1 linked_id forward id, acc.2 ++ [linked_id])
    else fixLoop id forward rest acc

/-- `GenerateBlocks._fix_node_link_consistency`: walk the node's own
`next` (`forward = true`) or `previous` list, keep only links to existing
nodes, append the reverse link when missing (logging an inconsistency
warning), and store the filtered list back. The iterated list is a snapshot
of the node's list at entry — the loop never mutates it (appends go to the
opposite direction of *linked* nodes). -/
def fixNodeDir (nodes : Nodes) (id : String) (forward : Bool) : Nodes :=
  match lookup nodes id with
  | none => nodes
  | some n =>
    let dirList := if forward then n.next else n.previous
    let step := fixLoop id forward dirList (nodes, [])
    setDir step.1 id forward step.2

/-- `GenerateBlocks.fix_link_consistency`: fix every node, in dict order,
forward then backward. -/
def fixLinkConsistency (nodes : Nodes) : Nodes :=
  (nodes.map (fun n => n.trip_id)).foldl
    (fun acc id => fixNodeDir (fixNodeDir acc id true) id false) nodes

/-- `GenerateBlocks._find_forks`: a node with multiple `previous` *and*
multiple `next` links is counted twice. -/
def findForks (nodes : Nodes) : List BlockNode :=
  nodes.filter (fun n => n.next.length > 1) ++
    nodes.filter (fun n => n.previous.length > 1)

/-- `GenerateBlocks._find_linked_forward`: follow unique `next` links,
checking the back-link assertion at each step; `none` models the source's
`ValueError` on a fork, `AssertionError`/`KeyError` on inconsistent data,
and fuel exhaustion models its unbounded loop on cyclic data. -/
def findLinkedForward (nodes : Nodes) : Nat → BlockNode →
    Option (List BlockNode)
  | 0, _ => none
  | fuel + 1, tail =>
    match tail.next with
    | [] => some [tail]
    | [next_id] =>
      match lookup nodes next_id with
      | none => none
      | some next_tail =>
        if next_tail.previous = [tail.trip_id] then
          match findLinkedForward nodes fuel next_tail with
          | some rest => some (tail :: rest)
          | none => none
        else none
    | _ => none

/-- Worker for `GenerateBlocks._find_linked_backward` (collects the nodes
in visiting order, i.e. reversed). -/
def walkBackward (nodes : Nodes) : Nat → BlockNode → Option (List BlockNode)
  | 0, _ => none
  | fuel + 1, head =>
    match head.previous with
    | [] => some [head]
    | [prev_id] =>
      match lookup nodes prev_id with
      | none => none
      | some next_head =>
        if next_head.next = [head.trip_id] then
          match walkBackward nodes fuel next_head with
          | some rest => some (head :: rest)
          | none => none
        else none
    | _ => none

/-- `GenerateBlocks._find_linked_backward`: like `walkBackward` but the
visited list is reversed before returning. -/
def findLinkedBackward (nodes : Nodes) (fuel : Nat) (head : BlockNode) :
    Option (List BlockNode) :=
  (walkBackward nodes fuel head).map List.reverse

def updateLast {α : Type} (f : α → α) : List α → List α
  | [] => []
  | [x] => [f x]
  | x :: rest => x :: updateLast f rest

def updateHead {α : Type} (f : α → α) : List α → List α
  | [] => []
  | x :: rest => f x :: rest

/-- One iteration of the block-building loop of
`GenerateBlocks._assign_blocks_around_fork`: the shared leg is cloned with
the leg's terminal destinations and, beyond the first leg, a `.{idx}`
suffix; the unique leg's nodes get the same destinations written into them,
and the seam link of the cloned shared leg is rewired to the unique leg. -/
def buildBlock (is_split : Bool) (shared_leg : List BlockNode) (idx : Nat)
    (uleg : List BlockNode) : List BlockNode :=
  let dest := (if is_split then uleg.getLastD dummyNode
    else shared_leg.getLastD dummyNode).destinations
  let suffix := if idx ≠ 1 then "." ++ toString idx else ""
  let shared_copy := shared_leg.map (fun n =>
    { n with destinations := dest, clone_with_suffix := suffix })
  let uleg' := uleg.map (fun n => { n with destinations := dest })
  if is_split then
    updateLast (fun n => { n with next := [(uleg.headD dummyNode).trip_id] })
      shared_copy ++ uleg'
  else
    uleg' ++ updateHead
      (fun n => { n with previous := [(uleg.getLastD dummyNode).trip_id] })
      shared_copy

/-- `for idx, unique_leg in enumerate(unique_legs, start=1): ...` -/
def buildBlocksGo (is_split : Bool) (shared_leg : List BlockNode)
    (idx : Nat) : List (List BlockNode) → List (List BlockNode)
  | [] => []
  | uleg :: rest =>
    buildBlock is_split shared_leg idx uleg ::
      buildBlocksGo is_split shared_leg (idx + 1) rest

def buildBlocks (is_split : Bool) (shared_leg : List BlockNode)
    (unique_legs : List (List BlockNode)) : List (List BlockNode) :=
  buildBlocksGo is_split shared_leg 1 unique_legs

/-- The list comprehension
`[self._find_linked_{forward,backward}(nodes, nodes[i]) for i in ids]`;
`none` models the exceptions the walkers raise. -/
def walkLegs (nodes : Nodes) (fuel : Nat) (forward : Bool) :
    List String → Option (List (List BlockNode))
  | [] => some []
  | i :: rest =>
    match lookup nodes i with
    | none => none
    | some n =>
      match (if forward then findLinkedForward nodes fuel n
        else findLinkedBackward nodes fuel n) with
      | none => none
      | some leg =>
        match walkLegs nodes fuel forward rest with
        | none => none
        | some legs => some (leg :: legs)

/-- `GenerateBlocks._assign_blocks_around_fork`: `none` models the
assertion errors and the walker exceptions. -/
def assignBlocksAroundFork (nodes : Nodes) (fork : BlockNode) :
    Option (List (List BlockNode)) :=
  if ¬(fork.next.length > 1 ∨ fork.previous.length > 1) then none
  else if ¬(fork.next.length ≤ 1 ∨ fork.previous.length ≤ 1) then none
  else
    let fuel := nodes.length + 1
    if fork.previous.length > 1 then
      match findLinkedForward nodes fuel fork with
      | none => none
      | some shared_leg =>
        match walkLegs nodes fuel false fork.previous with
        | none => none
        | some unique_legs => some (buildBlocks false shared_leg unique_legs)
    else
      match findLinkedBackward nodes fuel fork with
      | none => none
      | some shared_leg =>
        match walkLegs nodes fuel true fork.next with
        | none => none
        | some unique_legs => some (buildBlocks true shared_leg unique_legs)

/-- `GenerateBlocks.find_all_blocks`: flat components become one block in
dict order; a single fork is resolved around that fork; two or more forks
are rejected with a warning naming the fork trip ids, contributing an empty
block list. -/
def findAllBlocks (nodes : Nodes) : Option (List (List BlockNode)) :=
  match findForks nodes with
  | [] => some [nodes]
  | [fork] => assignBlocksAroundFork nodes fork
  | _ => some []

/-! Verification-side accessors over the node dict: the trip-id list, and
the link lists of the node stored under an id (empty when absent). -/

def nodeIds (s : Nodes) : List String := s.map (fun n => n.trip_id)

/-- The node's `next` (`forward = true`) or `previous` list. -/
def getDir (forward : Bool) (n : BlockNode) : List String :=
  if forward then n.next else n.previous

def dirIds (forward : Bool) (s : Nodes) (i : String) : List String :=
  ((lookup s i).map (getDir forward)).getD []

/-- The link-symmetry property established per node and direction: every
link target exists, and carries the reverse link. -/
def SymDir (forward : Bool) (s : Nodes) (ids0 : List String)
    (i : String) : Prop :=
  ∀ j ∈ dirIds forward s i, j ∈ ids0 ∧ i ∈ dirIds (!forward) s j

/-- A backward-linked chain, listed from the fork end downward: each node's
`previous` is exactly the next listed node, whose `next` is exactly the
node before it; the earliest node has no `previous`. (This is the walk
order of `_find_linked_backward`, i.e. the trunk reversed.) -/
def revChainB : List BlockNode → Bool
  | [] => false
  | [a] => decide (a.previous = [])
  | a :: b :: rest =>
    decide (a.previous = [b.trip_id]) && decide (b.next = [a.trip_id]) &&
      revChainB (b :: rest)

/-- Concrete node set with one dangling link (`ghost`) and one asymmetric
link (`b → c` declared only on `b`). -/
def linkFixNodes : Nodes :=
  [⟨"a", [], [], ["b", "ghost"], ""⟩,
   ⟨"b", [], [], ["c"], ""⟩,
   ⟨"c", [], ["b"], [], ""⟩]

/-- Concrete single-fork split component: trunk `t1 → t2`, branches `b1`,
`b2` hanging off `t2`. -/
def splitTrunk : List BlockNode :=
  [⟨"t1", ["D1", "D2"], [], ["t2"], ""⟩,
   ⟨"t2", ["D1", "D2"], ["t1"], ["b1", "b2"], ""⟩]

def splitB1 : BlockNode := ⟨"b1", ["D1"], ["t2"], [], ""⟩

def splitB2 : BlockNode := ⟨"b2", ["D2"], ["t2"], [], ""⟩

end GenBlocks

open BlockSolver in
/-- C3 (counterexample): a train without an explicit next list whose
last-stop signature has two candidate continuations in the index, but which
is flagged `is_last`: `next_trains` short-circuits to zero matches *without
emitting the ambiguity warning* the claim requires. -/
theorem ambiguousSignatureIsLastNoWarning_cex :
    ambLastTrain.next = none ∧
    ((dictGet ambSolver.trains_by_first_sta ambLastTrain.last_sta).getD
      []).length > 1 ∧
    nextTrains ambSolver ambLastTrain = ([], []) ∧
    nextTrains ambSolver ambLastTrain ≠
      ([Warn.multipleHashes ambLastTrain.id true], []) := by
  decide

open BlockSolver in
/-- C3 (amended): for a train without an explicit link list that is not
flagged `is_last` (resp. `is_first` truthy), more than one candidate under
the matching stop-time-hash signature makes `next_trains` (resp.
`previous_trains`) emit the ambiguity warning and return zero matches —
never one of the competing candidates. -/
theorem ambiguousSignatureWarnsAndResolvesNone
    (solver : Solver) (t : TrainShort) (hs : List String) :
    (t.next = none → t.is_last = false →
      dictGet solver.trains_by_first_sta t.last_sta = some hs →
      hs.length > 1 →
      nextTrains solver t = ([Warn.multipleHashes t.id true], [])) ∧
    (t.prev = none → t.is_first.getD false = false →
      dictGet solver.trains_by_last_sta t.first_sta = some hs →
      hs.length > 1 →
      previousTrains solver t = ([Warn.multipleHashes t.id false], [])) := by
  constructor
  · intro hnext hlast hidx hlen
    have hne : ¬hs = [] := by
      intro h
      subst h
      simp at hlen
    simp [nextTrains, hlast, hnext, hidx, hne, hlen]
  · intro hprev hfirst hidx hlen
    have hne : ¬hs = [] := by
      intro h
      subst h
      simp at hlen
    simp [previousTrains, hfirst, hprev, hidx, hne, hlen]

open BlockSolver in
/-- C3 (witness): the amended theorem applied to the concrete ambiguity
scenario. -/
theorem ambiguousSignatureWarnsAndResolvesNone_witness :
    nextTrains ambSolver ambMidTrain =
      ([Warn.multipleHashes "t" true], []) ∧
    previousTrains ambSolver ambMidTrain =
      ([Warn.multipleHashes "t" false], []) :=
  ⟨(ambiguousSignatureWarnsAndResolvesNone ambSolver ambMidTrain
      ["x", "y"]).1 rfl rfl (by decide) (by decide),
   (ambiguousSignatureWarnsAndResolvesNone ambSolver ambMidTrain
      ["u", "v"]).2 rfl rfl (by decide) (by decide)⟩

open BlockSolver in
/-- C9 (counterexample): a train flagged `is_last` with a declared explicit
next list — `next_trains` returns zero candidates, not the declared list. -/
theorem explicitLinksIsLast_cex :
    lastWithNext.next = some ["x"] ∧
    nextTrains (Solver.init "g") lastWithNext ≠ ([], ["x"]) ∧
    nextTrains (Solver.init "g") lastWithNext = ([], []) := by
  decide

open BlockSolver in
/-- C9 (amended): for a train not flagged `is_last` (resp. `is_first`
truthy) whose explicit next (resp. previous) list is present, the candidate
finding returns exactly the declared list, independently of the signature
indices (the result is the same for every solver state). -/
theorem explicitLinksPreferred (solver : Solver) (t : TrainShort)
    (l : List String) :
    (t.is_last = false → t.next = some l →
      nextTrains solver t = ([], l)) ∧
    (t.is_first.getD false = false → t.prev = some l →
      previousTrains solver t = ([], l)) := by
  constructor
  · intro hlast hnext
    simp [nextTrains, hlast, hnext]
  · intro hfirst hprev
    simp [previousTrains, hfirst, hprev]

open BlockSolver in
/-- C9 (witness): the amended theorem applied to a train with explicit
links in both directions, under a solver whose indices are nonempty. -/
theorem explicitLinksPreferred_witness :
    nextTrains ambSolver midWithLinks = ([], ["x", "y"]) ∧
    previousTrains ambSolver midWithLinks = ([], ["p"]) :=
  ⟨(explicitLinksPreferred ambSolver midWithLinks ["x", "y"]).1 rfl rfl,
   (explicitLinksPreferred ambSolver midWithLinks ["p"]).2 rfl rfl⟩

open BlockSolver in
/-- C7 (counterexample): on the two-train chain `A(id=1,next=[2])`,
`B(id=2,prev=[1],next=[])`, the solver resolves one flat block `[1, 2]`,
but the block identifier is `"g.1"`, not `"g.0"` — `BlockSolver.__init__`
starts the counter at 1. -/
theorem blockCounterStartsAtZero_cex :
    (solveLoop chainSolver 2).toOption.map
      (fun p => (getBlock p.1 "1", getBlock p.1 "2", p.2)) =
      some (["g.1"], ["g.1"], [["1", "2"]]) ∧
    (solveLoop chainSolver 2).toOption.map (fun p => getBlock p.1 "1") ≠
      some ["g.0"] := by
  decide

open BlockSolver in
/-- C7 (amended): the two-train chain resolves to exactly one flat block
containing trip 1 followed by trip 2, and the block identifier reported for
both trips is the group prefix, a dot, and a counter that starts at 1. -/
theorem twoTrainChainOneBlockIdOne :
    (solveLoop chainSolver 2).toOption.map
      (fun p => (getBlock p.1 "1", getBlock p.1 "2", p.2)) =
      some (["g.1"], ["g.1"], [["1", "2"]]) := by
  decide

/-! ### Dictionary lemmas -/

theorem dictGet_dictSet {K V : Type} [DecidableEq K]
    (l : List (K × V)) (k k' : K) (v : V) :
    dictGet (dictSet l k v) k' = if k = k' then some v else dictGet l k' := by
  induction l with
  | nil => simp [dictSet, dictGet]
  | cons p rest ih =>
    by_cases hpk : p.1 = k
    · subst hpk
      by_cases hk : p.1 = k' <;> simp [dictSet, dictGet, hk]
    · by_cases hk : p.1 = k'
      · have hkk : ¬k = k' := fun hx => hpk (by rw [hk, hx])
        have hk2 : ¬k' = k := fun hx => hkk hx.symm
        simp only [dictSet, if_neg hpk, dictGet, if_pos hk, if_neg hkk,
          if_neg hk2]
      · simp [dictSet, dictGet, hpk, hk, ih]

theorem dictGet_append {K V : Type} [DecidableEq K]
    (l₁ l₂ : List (K × V)) (k : K) :
    dictGet (l₁ ++ l₂) k =
      match dictGet l₁ k with
      | some v => some v
      | none => dictGet l₂ k := by
  induction l₁ with
  | nil => simp [dictGet]
  | cons p rest ih =>
    by_cases hk : p.1 = k <;> simp [dictGet, hk, ih]

theorem dictGet_dictDel_isSome {K V : Type} [DecidableEq K]
    (l : List (K × V)) (k k' : K)
    (h : (dictGet (dictDel l k) k').isSome) : (dictGet l k').isSome := by
  induction l with
  | nil => simpa [dictDel] using h
  | cons p rest ih =>
    by_cases hpk : p.1 = k
    · by_cases hk : p.1 = k' <;> simp_all [dictDel, dictGet]
    · by_cases hk : p.1 = k' <;> simp_all [dictDel, dictGet]

theorem dictGet_dictAppend_isSome {K V : Type} [DecidableEq K]
    (d : List (K × List V)) (k k' : K) (x : V)
    (h : (dictGet (dictAppend d k x) k').isSome) :
    k' = k ∨ (dictGet d k').isSome := by
  unfold dictAppend at h
  cases hg : dictGet d k with
  | some cur =>
    rw [hg] at h
    rw [dictGet_dictSet] at h
    by_cases hk : k = k'
    · exact Or.inl hk.symm
    · rw [if_neg hk] at h
      exact Or.inr h
  | none =>
    rw [hg] at h
    rw [dictGet_append] at h
    cases hd : dictGet d k' with
    | some v => exact Or.inr (by simp [hd])
    | none =>
      rw [hd] at h
      by_cases hk : k = k'
      · exact Or.inl hk.symm
      · simp [dictGet, hk] at h

theorem mem_dictSet {K V : Type} [DecidableEq K]
    (l : List (K × V)) (k : K) (v : V) (p : K × V)
    (h : p ∈ dictSet l k v) : p ∈ l ∨ p = (k, v) := by
  induction l with
  | nil => simpa [dictSet] using h
  | cons q rest ih =>
    by_cases hq : q.1 = k <;> simp [dictSet, hq] at h <;> rcases h with h | h
    · exact Or.inr h
    · exact Or.inl (List.mem_cons_of_mem _ h)
    · exact Or.inl (h ▸ List.mem_cons_self _ _)
    · rcases ih h with h' | h'
      · exact Or.inl (List.mem_cons_of_mem _ h')
      · exact Or.inr h'

theorem mem_dictDel {K V : Type} [DecidableEq K]
    (l : List (K × V)) (k : K) (p : K × V)
    (h : p ∈ dictDel l k) : p ∈ l := by
  induction l with
  | nil => simp [dictDel] at h
  | cons q rest ih =>
    by_cases hq : q.1 = k <;> simp [dictDel, hq] at h
    · exact List.mem_cons_of_mem _ h
    · rcases h with h | h
      · exact h ▸ List.mem_cons_self _ _
      · exact List.mem_cons_of_mem _ (ih h)

/-! ### Domain invariants of the expansion and solving passes (C6) -/

open BlockSolver

theorem appendEdge_dom (g : Graph) (id : String) (forward : Bool)
    (other k : String) (h : (dictGet (appendEdge g id forward other) k).isSome) :
    k = id ∨ (dictGet g k).isSome := by
  unfold appendEdge at h
  cases hg : dictGet g id with
  | none => rw [hg] at h; exact Or.inr h
  | some n =>
    rw [hg] at h
    dsimp only at h
    have key : ∀ m : GNode, (dictGet (dictSet g id m) k).isSome →
        k = id ∨ (dictGet g k).isSome := by
      intro m hm
      rw [dictGet_dictSet] at hm
      by_cases hk : id = k
      · exact Or.inl hk.symm
      · rw [if_neg hk] at hm
        exact Or.inr hm
    by_cases hf : forward = true
    · rw [if_pos hf] at h
      exact key _ h
    · rw [if_neg hf] at h
      exact key _ h

theorem expandStep_dom (solver : Solver) :
    ∀ (fuel : Nat) (call : ExpandCall) (g g' : Graph),
      expandStep solver fuel call g = .ok g' →
      ∀ k, (dictGet g' k).isSome →
        (dictGet g k).isSome ∨ k = call.rootId ∨
          (dictGet solver.trains_by_id k).isSome := by
  intro fuel
  induction fuel with
  | zero => intro call g g' h; simp [expandStep] at h
  | succ fuel ih =>
    intro call g g' h k hk
    cases call with
    | node id train initPrev initNext forward ignore =>
      simp only [expandStep] at h
      cases hg : dictGet g id with
      | some n =>
        rw [hg] at h
        rcases ih _ _ _ h k hk with h' | h' | h'
        · exact Or.inl h'
        · exact Or.inr (Or.inl h')
        · exact Or.inr (Or.inr h')
      | none =>
        rw [hg] at h
        rcases ih _ _ _ h k hk with h' | h' | h'
        · rw [dictGet_dictSet] at h'
          by_cases hid : id = k
          · exact Or.inr (Or.inl hid.symm)
          · rw [if_neg hid] at h'
            exact Or.inl h'
        · exact Or.inr (Or.inl h')
        · exact Or.inr (Or.inr h')
    | loop id cands forward ignore =>
      cases cands with
      | nil =>
        simp only [expandStep, Except.ok.injEq] at h
        subst h
        exact Or.inl hk
      | cons cid rest =>
        simp only [expandStep] at h
        by_cases hc : cid = ignore
        · rw [if_pos hc] at h
          exact ih _ _ _ h k hk
        · rw [if_neg hc] at h
          by_cases hv : (dictGet g cid).isSome
          · simp [hv] at h
          · simp only [hv, if_false, Bool.false_eq_true] at h
            cases hT : dictGet solver.trains_by_id cid with
            | none =>
              rw [hT] at h
              exact ih _ _ _ h k hk
            | some t =>
              rw [hT] at h
              dsimp only at h
              cases h1 : expandStep solver fuel
                  (.node cid t (if forward then [id] else [])
                    (if forward then [] else [id]) forward "")
                  (appendEdge g id forward cid) with
              | error e =>
                rw [h1] at h
                dsimp only at h
                cases h
              | ok g2 =>
                rw [h1] at h
                dsimp only at h
                cases h2 : expandStep solver fuel
                    (.node cid t [] [] (!forward) id) g2 with
                | error e =>
                  rw [h2] at h
                  dsimp only at h
                  cases h
                | ok g3 =>
                  rw [h2] at h
                  dsimp only at h
                  rcases ih _ _ _ h k hk with h' | h' | h'
                  · rcases ih _ _ _ h2 k h' with h'' | h'' | h''
                    · rcases ih _ _ _ h1 k h'' with h3 | h3 | h3
                      · rcases appendEdge_dom g id forward cid k h3 with h4 | h4
                        · exact Or.inr (Or.inl h4)
                        · exact Or.inl h4
                      · exact Or.inr (Or.inr (by rw [h3]; simp [ExpandCall.rootId, hT]))
                      · exact Or.inr (Or.inr h3)
                    · exact Or.inr (Or.inr (by rw [h'']; simp [ExpandCall.rootId, hT]))
                    · exact Or.inr (Or.inr h'')
                  · exact Or.inr (Or.inl h')
                  · exact Or.inr (Or.inr h')

theorem foldl_append_mem {α β : Type} (f : α → List β) (l : List α) :
    ∀ (init : List β) (x : β),
      x ∈ l.foldl (fun acc y => acc ++ f y) init →
        x ∈ init ∨ ∃ y ∈ l, x ∈ f y := by
  induction l with
  | nil => intro init x h; exact Or.inl h
  | cons a l ih =>
    intro init x h
    rcases ih _ _ h with h' | ⟨y, hy, hx⟩
    · rcases List.mem_append.mp h' with h'' | h''
      · exact Or.inl h''
      · exact Or.inr ⟨a, List.mem_cons_self _ _, h''⟩
    · exact Or.inr ⟨y, List.mem_cons_of_mem _ hy, hx⟩

theorem blocksUpTo_mem (g : Graph) :
    ∀ (fuel : Nat) (id : String) (bl : List String) (k : String),
      bl ∈ blocksUpTo g fuel id → k ∈ bl → (dictGet g k).isSome := by
  intro fuel
  induction fuel with
  | zero => intro id bl k h; simp [blocksUpTo] at h
  | succ fuel ih =>
    intro id bl k h hk
    simp only [blocksUpTo] at h
    cases hg : dictGet g id with
    | none => rw [hg] at h; simp at h
    | some n =>
      rw [hg] at h
      rcases List.mem_map.mp h with ⟨b, hb, hbl⟩
      subst hbl
      rcases List.mem_append.mp hk with hkb | hki
      · by_cases hp : n.prev = []
        · rw [if_pos hp] at hb
          simp at hb
          subst hb
          cases hkb
        · rw [if_neg hp] at hb
          rcases foldl_append_mem _ _ _ _ hb with h' | ⟨pid, _, hbp⟩
          · cases h'
          · exact ih pid b k hbp hkb
      · simp at hki
        subst hki
        simp [hg]

theorem innerAssign_isSome (bl : List String) :
    ∀ (m : List (String × List Nat)) (bid : Nat) (k : String),
      (dictGet (bl.foldl (fun mm tid => dictAppend mm tid bid) m) k).isSome →
      (dictGet m k).isSome ∨ k ∈ bl := by
  induction bl with
  | nil => intro m bid k h; exact Or.inl h
  | cons tid rest ih =>
    intro m bid k h
    rcases ih _ _ _ h with h' | h'
    · rcases dictGet_dictAppend_isSome _ _ _ _ h' with h'' | h''
      · exact Or.inr (h'' ▸ List.mem_cons_self _ _)
      · exact Or.inl h''
    · exact Or.inr (List.mem_cons_of_mem _ h')

theorem outerAssign_isSome (assigned : List (List String)) :
    ∀ (m : List (String × List Nat)) (bid : Nat) (k : String),
      (dictGet (assigned.foldl
        (fun (st : List (String × List Nat) × Nat) block =>
          (block.foldl (fun mm tid => dictAppend mm tid st.2) st.1, st.2 + 1))
        (m, bid)).1 k).isSome →
      (dictGet m k).isSome ∨ ∃ bl ∈ assigned, k ∈ bl := by
  induction assigned with
  | nil => intro m bid k h; exact Or.inl h
  | cons bl rest ih =>
    intro m bid k h
    rcases ih _ _ _ h with h' | ⟨b, hb, hkb⟩
    · rcases innerAssign_isSome _ _ _ _ h' with h'' | h''
      · exact Or.inl h''
      · exact Or.inr ⟨bl, List.mem_cons_self _ _, h''⟩
    · exact Or.inr ⟨b, List.mem_cons_of_mem _ hb, hkb⟩

theorem dropTrain_blocks (s : Solver) (t : TrainShort) :
    (dropTrain s t).blocks = s.blocks := rfl

theorem dropFold_blocks (l : List (String × GNode)) (s : Solver) :
    (l.foldl (fun s p => dropTrain s p.2.train) s).blocks = s.blocks := by
  induction l generalizing s with
  | nil => rfl
  | cons p rest ih => rw [List.foldl_cons, ih, dropTrain_blocks]

theorem dropFold_trains (l : List (String × GNode)) :
    ∀ (s : Solver) (k : String),
      (dictGet (l.foldl (fun s p => dropTrain s p.2.train) s).trains_by_id
        k).isSome →
      (dictGet s.trains_by_id k).isSome := by
  induction l with
  | nil => intro s k h; exact h
  | cons p rest ih =>
    intro s k h
    exact dictGet_dictDel_isSome _ _ _ (ih _ _ h)

/-- Key invariant: solving one train can only assign blocks to the seed
train or to trains present in the by-id index. -/
theorem solveTrain_blocks_dom (solver : Solver) (fuel : Nat)
    (tr : TrainShort) (st' : Solver) (assigned : List (List String))
    (h : solveTrain solver fuel tr = .ok (st', assigned)) :
    ∀ k, (dictGet st'.blocks k).isSome →
      (dictGet solver.blocks k).isSome ∨ k = tr.id ∨
        (dictGet solver.trains_by_id k).isSome := by
  intro k hk
  unfold solveTrain at h
  cases h1 : expandDir solver fuel [] tr.id tr [] [] false "" with
  | error e => rw [h1] at h; dsimp only at h; cases h
  | ok g1 =>
    rw [h1] at h
    dsimp only at h
    cases h2 : expandDir solver fuel g1 tr.id tr [] [] true "" with
    | error e => rw [h2] at h; dsimp only at h; cases h
    | ok g2 =>
      rw [h2] at h
      dsimp only at h
      by_cases hlen : g2.length < 2
      · rw [if_pos hlen] at h
        simp only [Except.ok.injEq, Prod.mk.injEq] at h
        rw [← h.1] at hk
        rw [dropTrain_blocks] at hk
        exact Or.inl hk
      · rw [if_neg hlen] at h
        by_cases hcond : (g2.filter (fun p => p.2.next.length > 1)).length > 2 ∨
            (g2.filter (fun p => p.2.next.length > 1)).length > 2 ∨
            ((g2.filter (fun p => p.2.prev.length > 1)).length > 1 ∧
              (g2.filter (fun p => p.2.next.length > 1)).length > 1)
        · rw [if_pos hcond] at h; cases h
        · rw [if_neg hcond] at h
          simp only [Except.ok.injEq, Prod.mk.injEq] at h
          have hblocks := h.1
          have hg2dom : ∀ k', (dictGet g2 k').isSome →
              k' = tr.id ∨ (dictGet solver.trains_by_id k').isSome := by
            intro k' hk'
            rcases expandStep_dom solver fuel _ _ _ h2 k' hk' with hx | hx | hx
            · rcases expandStep_dom solver fuel _ _ _ h1 k' hx with hy | hy | hy
              · simp [dictGet] at hy
              · exact Or.inl hy
              · exact Or.inr hy
            · exact Or.inl hx
            · exact Or.inr hx
          rw [← hblocks] at hk
          dsimp only at hk
          rcases outerAssign_isSome _ _ _ _ hk with hx | ⟨bl, hbl, hkbl⟩
          · rw [dropFold_blocks] at hx
            exact Or.inl hx
          · rcases foldl_append_mem _ _ _ _ hbl with hx | ⟨p, _, hbp⟩
            · cases hx
            · have := blocksUpTo_mem g2 (g2.length + 1) p.1 bl k hbp hkbl
              rcases hg2dom k this with hy | hy
              · exact Or.inr (Or.inl hy)
              · exact Or.inr (Or.inr hy)

theorem solveTrain_trains_dom (solver : Solver) (fuel : Nat)
    (tr : TrainShort) (st' : Solver) (assigned : List (List String))
    (h : solveTrain solver fuel tr = .ok (st', assigned)) :
    ∀ k, (dictGet st'.trains_by_id k).isSome →
      (dictGet solver.trains_by_id k).isSome := by
  intro k hk
  unfold solveTrain at h
  cases h1 : expandDir solver fuel [] tr.id tr [] [] false "" with
  | error e => rw [h1] at h; dsimp only at h; cases h
  | ok g1 =>
    rw [h1] at h
    dsimp only at h
    cases h2 : expandDir solver fuel g1 tr.id tr [] [] true "" with
    | error e => rw [h2] at h; dsimp only at h; cases h
    | ok g2 =>
      rw [h2] at h
      dsimp only at h
      by_cases hlen : g2.length < 2
      · rw [if_pos hlen] at h
        simp only [Except.ok.injEq, Prod.mk.injEq] at h
        rw [← h.1] at hk
        exact dictGet_dictDel_isSome _ _ _ hk
      · rw [if_neg hlen] at h
        by_cases hcond : (g2.filter (fun p => p.2.next.length > 1)).length > 2 ∨
            (g2.filter (fun p => p.2.next.length > 1)).length > 2 ∨
            ((g2.filter (fun p => p.2.prev.length > 1)).length > 1 ∧
              (g2.filter (fun p => p.2.next.length > 1)).length > 1)
        · rw [if_pos hcond] at h; cases h
        · rw [if_neg hcond] at h
          simp only [Except.ok.injEq, Prod.mk.injEq] at h
          rw [← h.1] at hk
          dsimp only at hk
          exact dropFold_trains _ _ _ hk

/-- The keys of `trains_by_id` are the train ids stored under them — true of
every state the source builds, since `add_train` stores each train under its
own id and nothing else inserts. -/
def KeyedById (s : Solver) : Prop :=
  ∀ p ∈ s.trains_by_id, p.2.id = p.1

theorem keyedById_dropTrain (s : Solver) (t : TrainShort)
    (h : KeyedById s) : KeyedById (dropTrain s t) := by
  intro p hp
  exact h p (mem_dictDel _ _ _ hp)

theorem keyedById_dropFold (l : List (String × GNode)) :
    ∀ (s : Solver), KeyedById s →
      KeyedById (l.foldl (fun s p => dropTrain s p.2.train) s) := by
  induction l with
  | nil => intro s h; exact h
  | cons p rest ih => intro s h; exact ih _ (keyedById_dropTrain _ _ h)

theorem keyedById_solveTrain (solver : Solver) (fuel : Nat)
    (tr : TrainShort) (st' : Solver) (assigned : List (List String))
    (h : solveTrain solver fuel tr = .ok (st', assigned))
    (hw : KeyedById solver) : KeyedById st' := by
  unfold solveTrain at h
  cases h1 : expandDir solver fuel [] tr.id tr [] [] false "" with
  | error e => rw [h1] at h; dsimp only at h; cases h
  | ok g1 =>
    rw [h1] at h
    dsimp only at h
    cases h2 : expandDir solver fuel g1 tr.id tr [] [] true "" with
    | error e => rw [h2] at h; dsimp only at h; cases h
    | ok g2 =>
      rw [h2] at h
      dsimp only at h
      by_cases hlen : g2.length < 2
      · rw [if_pos hlen] at h
        simp only [Except.ok.injEq, Prod.mk.injEq] at h
        rw [← h.1]
        exact keyedById_dropTrain _ _ hw
      · rw [if_neg hlen] at h
        by_cases hcond : (g2.filter (fun p => p.2.next.length > 1)).length > 2 ∨
            (g2.filter (fun p => p.2.next.length > 1)).length > 2 ∨
            ((g2.filter (fun p => p.2.prev.length > 1)).length > 1 ∧
              (g2.filter (fun p => p.2.next.length > 1)).length > 1)
        · rw [if_pos hcond] at h; cases h
        · rw [if_neg hcond] at h
          simp only [Except.ok.injEq, Prod.mk.injEq] at h
          intro p hp
          have hmem : p ∈ (g2.foldl (fun s p => dropTrain s p.2.train)
              solver).trains_by_id := by
            rw [← h.1] at hp
            exact hp
          exact keyedById_dropFold _ _ hw p hmem

theorem solveLoop_blocks_dom :
    ∀ (fuel : Nat) (solver : Solver) (st' : Solver)
      (rest : List (List String)),
      KeyedById solver →
      solveLoop solver fuel = .ok (st', rest) →
      ∀ k, (dictGet st'.blocks k).isSome →
        (dictGet solver.blocks k).isSome ∨
          (dictGet solver.trains_by_id k).isSome := by
  intro fuel
  induction fuel with
  | zero =>
    intro solver st' rest _ h k hk
    simp only [solveLoop] at h
    by_cases he : solver.trains_by_id.isEmpty
    · rw [if_pos he] at h
      simp only [Except.ok.injEq, Prod.mk.injEq] at h
      rw [← h.1] at hk
      exact Or.inl hk
    · rw [if_neg he] at h; cases h
  | succ fuel ih =>
    intro solver st' rest hw h k hk
    simp only [solveLoop] at h
    cases htr : solver.trains_by_id with
    | nil =>
      rw [htr] at h
      simp only [Except.ok.injEq, Prod.mk.injEq] at h
      rw [← h.1] at hk
      exact Or.inl hk
    | cons p ptl =>
      rw [htr] at h
      dsimp only at h
      cases hst : solveTrain solver (8 * ((p :: ptl).length + 1)) p.2 with
      | error e => rw [hst] at h; dsimp only at h; cases h
      | ok s1 =>
        rw [hst] at h
        dsimp only at h
        cases hloop : solveLoop s1.1 fuel with
        | error e => rw [hloop] at h; dsimp only at h; cases h
        | ok s2 =>
          rw [hloop] at h
          dsimp only at h
          simp only [Except.ok.injEq, Prod.mk.injEq] at h
          rw [← h.1] at hk
          have hw1 : KeyedById s1.1 :=
            keyedById_solveTrain _ _ _ _ _ hst hw
          rcases ih s1.1 s2.1 s2.2 hw1 hloop k hk with hx | hx
          · rcases solveTrain_blocks_dom _ _ _ _ _ hst k hx with hy | hy | hy
            · exact Or.inl hy
            · right
              have hpmem : p ∈ solver.trains_by_id := by
                rw [htr]; exact List.mem_cons_self _ _
              have hid : p.2.id = p.1 := hw p hpmem
              rw [hy, hid]
              simp [dictGet]
            · exact Or.inr (htr ▸ hy)
          · exact Or.inr (htr ▸ solveTrain_trains_dom _ _ _ _ _ hst k hx)

theorem addTrain_blocks (s : Solver) (t : Train) :
    (addTrain s t).blocks = s.blocks := by
  unfold addTrain
  dsimp only
  split
  · rfl
  · split <;> rfl

theorem addTrain_trains_dom (s : Solver) (t : Train) (k : String)
    (h : (dictGet (addTrain s t).trains_by_id k).isSome) :
    (dictGet s.trains_by_id k).isSome ∨ k = t.id := by
  unfold addTrain at h
  dsimp only at h
  split at h
  · exact Or.inl h
  · have h' : (dictGet (dictSet s.trains_by_id
        (TrainShort.fromModel t).id (TrainShort.fromModel t))
        k).isSome := by
      split at h <;> simpa using h
    rw [dictGet_dictSet] at h'
    by_cases hk : (TrainShort.fromModel t).id = k
    · exact Or.inr (hk ▸ rfl)
    · rw [if_neg hk] at h'
      exact Or.inl h'

theorem keyedById_addTrain (s : Solver) (t : Train)
    (h : KeyedById s) : KeyedById (addTrain s t) := by
  unfold addTrain
  dsimp only
  split
  · exact h
  · intro p hp
    have hp' : p ∈ dictSet s.trains_by_id (TrainShort.fromModel t).id
        (TrainShort.fromModel t) := by
      split at hp <;> exact hp
    rcases mem_dictSet _ _ _ _ hp' with hq | hq
    · exact h p hq
    · rw [hq]

open BlockSolver in
/-- C6: a train whose stop-time sequence starts at its declared origin and
ends at its declared destination (`is_first` and `is_last` both true) is
excluded from block graph construction entirely: `add_train` leaves the
solver unchanged, and in any run of the solver loop over a state built from
trains none of which carry that id into the index, the train's id ends with
no block assignment. -/
theorem selfContainedTrainExcluded (t : Train)
    (h1 : (TrainShort.fromModel t).is_first = some true)
    (h2 : (TrainShort.fromModel t).is_last = true) :
    (∀ s : Solver, addTrain s t = s) ∧
    (∀ (pfx : String) (ts : List Train) (fuel : Nat) (st' : Solver)
        (rest : List (List String)),
      (∀ t' ∈ ts, t'.id = t.id →
        (TrainShort.fromModel t').is_first = some true ∧
        (TrainShort.fromModel t').is_last = true) →
      solveLoop (ts.foldl addTrain (Solver.init pfx)) fuel = .ok (st', rest) →
      getBlock st' t.id = []) := by
  constructor
  · intro s
    unfold addTrain
    dsimp only
    rw [h1, h2]
    simp
  · intro pfx ts fuel st' rest hts hrun
    have hbase : ∀ (s : Solver), KeyedById s →
        (dictGet s.trains_by_id t.id).isSome = false →
        s.blocks = [] →
        KeyedById (ts.foldl addTrain s) ∧
        (dictGet (ts.foldl addTrain s).trains_by_id t.id).isSome = false ∧
        (ts.foldl addTrain s).blocks = [] := by
      clear hrun
      induction ts with
      | nil => intro s hw hdom hb; exact ⟨hw, hdom, hb⟩
      | cons t' tl ih =>
        intro s hw hdom hb
        have hts' : ∀ t'' ∈ tl, t''.id = t.id →
            (TrainShort.fromModel t'').is_first = some true ∧
            (TrainShort.fromModel t'').is_last = true := by
          intro t'' ht'' heq
          exact hts t'' (List.mem_cons_of_mem _ ht'') heq
        by_cases hid : t'.id = t.id
        · have hself := hts t' (List.mem_cons_self _ _) hid
          have haddid : addTrain s t' = s := by
            unfold addTrain
            dsimp only
            rw [hself.1, hself.2]
            simp
          rw [List.foldl_cons, haddid]
          exact ih hts' s hw hdom hb
        · rw [List.foldl_cons]
          apply ih hts'
          · exact keyedById_addTrain _ _ hw
          · by_cases hy : (dictGet (addTrain s t').trains_by_id t.id).isSome
            · rcases addTrain_trains_dom _ _ _ hy with hz | hz
              · rw [hdom] at hz; cases hz
              · exact absurd hz.symm hid
            · simpa using hy
          · rw [addTrain_blocks]; exact hb
    obtain ⟨hw0, hdom0, hb0⟩ := hbase (Solver.init pfx)
      (by intro p hp; cases hp) (by simp [Solver.init, dictGet]) rfl
    by_cases hfin : (dictGet st'.blocks t.id).isSome
    · rcases solveLoop_blocks_dom fuel _ _ _ hw0 hrun t.id hfin with hx | hx
      · rw [hb0] at hx
        simp [dictGet] at hx
      · exact absurd hx (by simp [hdom0])
    · unfold getBlock
      cases hq : dictGet st'.blocks t.id with
      | some l => rw [hq] at hfin; simp at hfin
      | none => rfl

open BlockSolver in
/-- C6 (witness): the theorem applied to a concrete self-contained train
mixed into the two-train chain scenario. -/
theorem selfContainedTrainExcluded_witness :
    addTrain (Solver.init "g") selfContainedTrain = Solver.init "g" ∧
    (solveLoop ([selfContainedTrain, chainTrainA, chainTrainB].foldl addTrain
        (Solver.init "g")) 3).toOption.map (fun p => getBlock p.1 "sc") =
      some [] := by
  have hthm := selfContainedTrainExcluded selfContainedTrain
    (by decide) (by decide)
  refine ⟨hthm.1 _, ?_⟩
  have hok : (solveLoop ([selfContainedTrain, chainTrainA, chainTrainB].foldl
      addTrain (Solver.init "g")) 3).toOption.isSome := by decide
  cases hrun : solveLoop ([selfContainedTrain, chainTrainA, chainTrainB].foldl
      addTrain (Solver.init "g")) 3 with
  | error e => rw [hrun] at hok; simp [Except.toOption] at hok
  | ok p =>
    have hres := hthm.2 "g" [selfContainedTrain, chainTrainA, chainTrainB] 3
      p.1 p.2 (by decide) (by rw [hrun])
    simp only [Except.toOption, Option.map]
    exact congrArg some hres

/-! ### Single-fork split resolution (C5) -/

namespace GenBlocks

theorem lookup_self (nodes : Nodes)
    (hnodup : (nodes.map (fun n => n.trip_id)).Nodup) :
    ∀ n ∈ nodes, lookup nodes n.trip_id = some n := by
  induction nodes with
  | nil => intro n hn; cases hn
  | cons m rest ih =>
    intro n hn
    rcases List.mem_cons.mp hn with h | h
    · subst h
      simp [lookup]
    · have hne : ¬m.trip_id = n.trip_id := by
        intro he
        have : n.trip_id ∈ rest.map (fun n => n.trip_id) :=
          List.mem_map.mpr ⟨n, h, rfl⟩
        rw [List.map_cons] at hnodup
        exact (List.nodup_cons.mp hnodup).1 (he ▸ this)
      rw [List.map_cons] at hnodup
      simp only [lookup, if_neg hne]
      exact ih (List.nodup_cons.mp hnodup).2 n h

theorem getLastD_eq_headD_reverse {α : Type} (l : List α) (d : α) :
    l.getLastD d = l.reverse.headD d := by
  induction l generalizing d with
  | nil => rfl
  | cons a rest ih =>
    rw [List.getLastD_cons, ih a, List.reverse_cons]
    cases hrr : rest.reverse with
    | nil =>
      have hrest : rest = [] := by simpa using congrArg List.reverse hrr
      subst hrest
      simp
    | cons x xs => simp

/-- Every node listed below the head of a backward chain has exactly one
`next` link. -/
theorem revChainB_next_len :
    ∀ (a : BlockNode) (rest : List BlockNode),
      revChainB (a :: rest) = true → ∀ n ∈ rest, n.next.length = 1 := by
  intro a rest
  induction rest generalizing a with
  | nil => intro _ n hn; cases hn
  | cons b tl ih =>
    intro hch n hn
    simp only [revChainB, Bool.and_eq_true, decide_eq_true_eq] at hch
    rcases List.mem_cons.mp hn with h | h
    · subst h
      rw [hch.1.2]
      rfl
    · have := ih b ?_ n h
      · exact this
      · have := hch.2
        exact this

/-- Every node of a backward chain has at most one `previous` link. -/
theorem revChainB_prev_le :
    ∀ (rt : List BlockNode), revChainB rt = true →
      ∀ n ∈ rt, n.previous.length ≤ 1 := by
  intro rt
  induction rt with
  | nil => intro _ n hn; cases hn
  | cons a rest ih =>
    intro hch n hn
    cases rest with
    | nil =>
      simp only [revChainB, decide_eq_true_eq] at hch
      rcases List.mem_cons.mp hn with h | h
      · subst h; rw [hch]; exact Nat.zero_le _
      · cases h
    | cons b tl =>
      simp only [revChainB, Bool.and_eq_true, decide_eq_true_eq] at hch
      rcases List.mem_cons.mp hn with h | h
      · subst h
        rw [hch.1.1]
        exact Nat.le_refl _
      · exact ih (by
          have := hch.2
          simpa [revChainB] using this) n h

/-- `_find_linked_backward`'s walk, run from the head of a backward chain
whose nodes are all found in the dict, visits exactly the chain. -/
theorem walkBackward_chain (nodes : Nodes) :
    ∀ (rt : List BlockNode), revChainB rt = true →
      (∀ n ∈ rt, lookup nodes n.trip_id = some n) →
      ∀ fuel, rt.length ≤ fuel →
        walkBackward nodes fuel (rt.headD dummyNode) = some rt := by
  intro rt
  induction rt with
  | nil => intro hch; simp [revChainB] at hch
  | cons a rest ih =>
    intro hch hlk fuel hfuel
    cases fuel with
    | zero => simp at hfuel
    | succ f =>
      cases rest with
      | nil =>
        simp only [revChainB, decide_eq_true_eq] at hch
        simp [walkBackward, hch]
      | cons b tl =>
        simp only [revChainB, Bool.and_eq_true, decide_eq_true_eq] at hch
        have hlkb : lookup nodes b.trip_id = some b :=
          hlk b (List.mem_cons_of_mem _ (List.mem_cons_self _ _))
        have hrec := ih hch.2
          (fun n hn => hlk n (List.mem_cons_of_mem _ hn)) f
          (by simpa using Nat.succ_le_succ_iff.mp hfuel)
        simp only [List.headD_cons] at hrec
        simp only [walkBackward, List.headD_cons, hch.1.1, hlkb, hch.1.2, hrec]
        simp

open BlockSolver in
/-- C5: a resolved component forming a single-fork split — a trunk chain
whose last node forks into two branch trains `b1`, `b2` — resolves to
exactly 2 blocks: each is the trunk followed by one distinct branch, the
trunk nodes of the second block are clones carrying the `.2` suffix on
their trip id, and each block's trunk nodes carry that branch's terminal
destinations, with the seam `next` link rewired to the branch. -/
theorem singleForkSplitTwoBlocks (trunk : List BlockNode) (b1 b2 : BlockNode)
    (hchain : revChainB trunk.reverse = true)
    (hfork : (trunk.getLastD dummyNode).next = [b1.trip_id, b2.trip_id])
    (hb1p : b1.previous = [(trunk.getLastD dummyNode).trip_id])
    (hb1n : b1.next = [])
    (hb2p : b2.previous = [(trunk.getLastD dummyNode).trip_id])
    (hb2n : b2.next = [])
    (hnodup : ((trunk ++ [b1, b2]).map (fun n => n.trip_id)).Nodup) :
    findAllBlocks (trunk ++ [b1, b2]) = some
      [updateLast (fun n => { n with next := [b1.trip_id] })
          (trunk.map (fun n =>
            { n with destinations := b1.destinations, clone_with_suffix := "" }))
          ++ [b1],
       updateLast (fun n => { n with next := [b2.trip_id] })
          (trunk.map (fun n =>
            { n with destinations := b2.destinations, clone_with_suffix := ".2" }))
          ++ [b2]] := by
  obtain ⟨f, rts, hrt⟩ : ∃ f rts, trunk.reverse = f :: rts := by
    cases hr : trunk.reverse with
    | nil => rw [hr] at hchain; simp [revChainB] at hchain
    | cons f rts => exact ⟨f, rts, rfl⟩
  have hforkf : trunk.getLastD dummyNode = f := by
    rw [getLastD_eq_headD_reverse, hrt]
    rfl
  have htrunkeq : trunk = rts.reverse ++ [f] := by
    have h := congrArg List.reverse hrt
    simpa using h
  rw [hforkf] at hfork hb1p hb2p
  have hlk := lookup_self (trunk ++ [b1, b2]) hnodup
  have hmemtrunk : ∀ n ∈ trunk, n ∈ trunk ++ [b1, b2] := by
    intro n hn
    exact List.mem_append.mpr (Or.inl hn)
  have hb1mem : b1 ∈ trunk ++ [b1, b2] := by simp
  have hb2mem : b2 ∈ trunk ++ [b1, b2] := by simp
  have hrtmem : ∀ n ∈ f :: rts, n ∈ trunk := by
    intro n hn
    rw [← hrt] at hn
    exact List.mem_reverse.mp hn
  -- the fork list is exactly [f]
  have hnext1 : ∀ n ∈ rts, n.next.length = 1 := by
    intro n hn
    exact revChainB_next_len f rts (hrt ▸ hchain) n hn
  have hprevle : ∀ n ∈ f :: rts, n.previous.length ≤ 1 := by
    intro n hn
    exact revChainB_prev_le _ (hrt ▸ hchain) n hn
  have hforks : findForks (trunk ++ [b1, b2]) = [f] := by
    unfold findForks
    have hA : (trunk ++ [b1, b2]).filter (fun n => n.next.length > 1) = [f] := by
      rw [htrunkeq]
      rw [List.append_assoc, List.filter_append]
      have h1 : rts.reverse.filter (fun n => n.next.length > 1) = [] := by
        rw [List.filter_eq_nil_iff]
        intro n hn
        have := hnext1 n (List.mem_reverse.mp hn)
        simp [this]
      have h2 : ([f] ++ [b1, b2]).filter (fun n => n.next.length > 1) = [f] := by
        simp [List.filter, hfork, hb1n, hb2n]
      rw [h1, h2]
      rfl
    have hB : (trunk ++ [b1, b2]).filter (fun n => n.previous.length > 1) = [] := by
      rw [List.filter_eq_nil_iff]
      intro n hn
      rcases List.mem_append.mp hn with h | h
      · have hmem : n ∈ f :: rts := by
          rw [← hrt]
          exact List.mem_reverse.mpr h
        have := hprevle n hmem
        simp
        omega
      · rcases List.mem_cons.mp h with h | h
        · subst h; simp [hb1p]
        · rcases List.mem_cons.mp h with h | h
          · subst h; simp [hb2p]
          · cases h
    rw [hA, hB]
    rfl
  -- run the resolution
  unfold findAllBlocks
  rw [hforks]
  dsimp only
  unfold assignBlocksAroundFork
  have hfnextlen : f.next.length = 2 := by rw [hfork]; rfl
  have hfprevle : f.previous.length ≤ 1 :=
    hprevle f (List.mem_cons_self _ _)
  rw [if_neg (by rw [hfnextlen]; simp)]
  rw [if_neg (by rw [hfnextlen]; simp; omega)]
  rw [if_neg (by omega)]
  -- the backward walk recovers the trunk
  have hwalk := walkBackward_chain (trunk ++ [b1, b2]) (f :: rts)
    (hrt ▸ hchain)
    (fun n hn => hlk n (hmemtrunk n (hrtmem n hn)))
    ((trunk ++ [b1, b2]).length + 1)
    (by
      have : (f :: rts).length = trunk.length := by
        rw [← hrt]
        simp
      rw [this]
      simp [List.length_append]
      omega)
  have hback : findLinkedBackward (trunk ++ [b1, b2])
      ((trunk ++ [b1, b2]).length + 1) f = some trunk := by
    unfold findLinkedBackward
    simp only [List.headD_cons] at hwalk
    rw [hwalk]
    have hrev : (f :: rts).reverse = trunk := by
      rw [← hrt]
      simp
    exact congrArg some hrev
  rw [hback]
  -- each branch is its own leg
  have hleg : ∀ b : BlockNode, b ∈ trunk ++ [b1, b2] → b.next = [] →
      findLinkedForward (trunk ++ [b1, b2])
        ((trunk ++ [b1, b2]).length + 1) b = some [b] := by
    intro b hb hbn
    unfold findLinkedForward
    rw [hbn]
  have hlegs : walkLegs (trunk ++ [b1, b2])
      ((trunk ++ [b1, b2]).length + 1) true f.next = some [[b1], [b2]] := by
    rw [hfork]
    simp only [walkLegs, hlk b1 hb1mem, hlk b2 hb2mem, if_true,
      hleg b1 hb1mem hb1n, hleg b2 hb2mem hb2n]
  rw [hlegs]
  -- build the two blocks
  unfold buildBlocks buildBlocksGo buildBlocksGo buildBlocksGo
  unfold buildBlock
  simp [show ("." ++ toString 2 : String) = ".2" from rfl]

/-! ### Link-consistency repair (C10) -/

theorem lookup_trip_id (s : Nodes) (j : String) (n : BlockNode)
    (h : lookup s j = some n) : n.trip_id = j := by
  induction s with
  | nil => cases h
  | cons m rest ih =>
    by_cases hm : m.trip_id = j
    · simp only [lookup, if_pos hm, Option.some.injEq] at h
      subst h
      exact hm
    · rw [lookup, if_neg hm] at h
      exact ih h

theorem lookup_isSome_iff (s : Nodes) (j : String) :
    (lookup s j).isSome = true ↔ j ∈ nodeIds s := by
  induction s with
  | nil => simp [lookup, nodeIds]
  | cons m rest ih =>
    simp only [lookup, nodeIds, List.map_cons, List.mem_cons]
    rw [nodeIds] at ih
    by_cases hm : m.trip_id = j
    · simp [hm]
    · rw [if_neg hm, ih]
      constructor
      · intro h
        exact Or.inr h
      · rintro (h | h)
        · exact absurd h.symm hm
        · exact h

theorem mem_dirIds_owner (fwd : Bool) (s : Nodes) (i y : String)
    (h : y ∈ dirIds fwd s i) : i ∈ nodeIds s := by
  unfold dirIds at h
  cases hl : lookup s i with
  | none => rw [hl] at h; cases h
  | some n =>
    rw [← lookup_isSome_iff]
    rw [hl]
    rfl

theorem lookup_map (h : BlockNode → BlockNode)
    (hpres : ∀ n, (h n).trip_id = n.trip_id) (s : Nodes) (j : String) :
    lookup (s.map h) j = (lookup s j).map h := by
  induction s with
  | nil => rfl
  | cons m rest ih =>
    by_cases hm : m.trip_id = j
    · simp [lookup, hpres m, hm]
    · simp [lookup, hpres m, hm, ih]

theorem nodeIds_map (h : BlockNode → BlockNode)
    (hpres : ∀ n, (h n).trip_id = n.trip_id) (s : Nodes) :
    nodeIds (s.map h) = nodeIds s := by
  induction s with
  | nil => rfl
  | cons m rest ih =>
    simp only [nodeIds, List.map_cons] at ih ⊢
    rw [hpres m, ih]

theorem setDirFn_trip_id (id : String) (fwd : Bool) (l : List String)
    (n : BlockNode) : (setDirFn id fwd l n).trip_id = n.trip_id := by
  unfold setDirFn
  split
  · split <;> rfl
  · rfl

theorem appendOtherFn_trip_id (id : String) (fwd : Bool) (x : String)
    (n : BlockNode) : (appendOtherFn id fwd x n).trip_id = n.trip_id := by
  unfold appendOtherFn
  split
  · split
    · split <;> rfl
    · split <;> rfl
  · rfl

theorem getDir_appendOtherFn_same (id : String) (fwd : Bool) (x : String)
    (n : BlockNode) : getDir fwd (appendOtherFn id fwd x n) = getDir fwd n := by
  unfold appendOtherFn
  by_cases hid : n.trip_id = id
  · rw [if_pos hid]
    cases fwd
    · by_cases hx : x ∈ n.next <;> simp [getDir, hx]
    · by_cases hx : x ∈ n.previous <;> simp [getDir, hx]
  · rw [if_neg hid]

theorem mem_getDir_appendOtherFn_other (id : String) (fwd : Bool)
    (x y : String) (n : BlockNode) :
    y ∈ getDir (!fwd) (appendOtherFn id fwd x n) ↔
      y ∈ getDir (!fwd) n ∨ (n.trip_id = id ∧ y = x) := by
  unfold appendOtherFn
  by_cases hid : n.trip_id = id
  · rw [if_pos hid]
    cases fwd
    · show y ∈ (if x ∈ n.next then n
          else { n with next := n.next ++ [x] }).next ↔
        y ∈ n.next ∨ (n.trip_id = id ∧ y = x)
      by_cases hx : x ∈ n.next
      · rw [if_pos hx]
        constructor
        · intro h
          exact Or.inl h
        · rintro (h | ⟨-, h⟩)
          · exact h
          · exact h ▸ hx
      · rw [if_neg hx]
        show y ∈ n.next ++ [x] ↔ _
        simp only [List.mem_append, List.mem_singleton]
        constructor
        · rintro (h | h)
          · exact Or.inl h
          · exact Or.inr ⟨hid, h⟩
        · rintro (h | ⟨-, h⟩)
          · exact Or.inl h
          · exact Or.inr h
    · show y ∈ (if x ∈ n.previous then n
          else { n with previous := n.previous ++ [x] }).previous ↔
        y ∈ n.previous ∨ (n.trip_id = id ∧ y = x)
      by_cases hx : x ∈ n.previous
      · rw [if_pos hx]
        constructor
        · intro h
          exact Or.inl h
        · rintro (h | ⟨-, h⟩)
          · exact h
          · exact h ▸ hx
      · rw [if_neg hx]
        show y ∈ n.previous ++ [x] ↔ _
        simp only [List.mem_append, List.mem_singleton]
        constructor
        · rintro (h | h)
          · exact Or.inl h
          · exact Or.inr ⟨hid, h⟩
        · rintro (h | ⟨-, h⟩)
          · exact Or.inl h
          · exact Or.inr h
  · rw [if_neg hid]
    simp [hid]

theorem getDir_setDirFn_other (id : String) (fwd : Bool) (l : List String)
    (n : BlockNode) : getDir (!fwd) (setDirFn id fwd l n) = getDir (!fwd) n := by
  unfold setDirFn
  by_cases hid : n.trip_id = id
  · rw [if_pos hid]
    cases fwd <;> simp [getDir]
  · rw [if_neg hid]

theorem getDir_setDirFn_same_hit (id : String) (fwd : Bool) (l : List String)
    (n : BlockNode) (h : n.trip_id = id) :
    getDir fwd (setDirFn id fwd l n) = l := by
  unfold setDirFn
  rw [if_pos h]
  cases fwd <;> simp [getDir]

theorem nodeIds_appendOther (s : Nodes) (id : String) (fwd : Bool)
    (x : String) : nodeIds (appendOther s id fwd x) = nodeIds s :=
  nodeIds_map _ (appendOtherFn_trip_id id fwd x) s

theorem nodeIds_setDir (s : Nodes) (id : String) (fwd : Bool)
    (l : List String) : nodeIds (setDir s id fwd l) = nodeIds s :=
  nodeIds_map _ (setDirFn_trip_id id fwd l) s

theorem dirIds_appendOther_same (s : Nodes) (id : String) (fwd : Bool)
    (x j : String) : dirIds fwd (appendOther s id fwd x) j = dirIds fwd s j := by
  unfold dirIds appendOther
  rw [lookup_map _ (appendOtherFn_trip_id id fwd x)]
  cases lookup s j with
  | none => rfl
  | some n => simp [getDir_appendOtherFn_same]

theorem mem_dirIds_appendOther_other (s : Nodes) (id : String) (fwd : Bool)
    (x j y : String) :
    y ∈ dirIds (!fwd) (appendOther s id fwd x) j ↔
      y ∈ dirIds (!fwd) s j ∨ (j = id ∧ y = x ∧ j ∈ nodeIds s) := by
  unfold dirIds appendOther
  rw [lookup_map _ (appendOtherFn_trip_id id fwd x)]
  cases hl : lookup s j with
  | none =>
    have : ¬j ∈ nodeIds s := by
      rw [← lookup_isSome_iff, hl]
      simp
    simp [this]
  | some n =>
    have hmem : j ∈ nodeIds s := by
      rw [← lookup_isSome_iff, hl]
      rfl
    have hid : n.trip_id = j := lookup_trip_id s j n hl
    simp only [Option.map_some', Option.getD_some]
    rw [mem_getDir_appendOtherFn_other]
    rw [hid]
    constructor
    · rintro (h | ⟨h1, h2⟩)
      · exact Or.inl h
      · exact Or.inr ⟨h1, h2, hmem⟩
    · rintro (h | ⟨h1, h2, -⟩)
      · exact Or.inl h
      · exact Or.inr ⟨h1, h2⟩

theorem dirIds_setDir_other_dir (s : Nodes) (id : String) (fwd : Bool)
    (l : List String) (j : String) :
    dirIds (!fwd) (setDir s id fwd l) j = dirIds (!fwd) s j := by
  unfold dirIds setDir
  rw [lookup_map _ (setDirFn_trip_id id fwd l)]
  cases lookup s j with
  | none => rfl
  | some n => simp [getDir_setDirFn_other]

theorem dirIds_setDir_other_node (s : Nodes) (id : String) (fwd : Bool)
    (l : List String) (j : String) (hj : j ≠ id) :
    dirIds fwd (setDir s id fwd l) j = dirIds fwd s j := by
  unfold dirIds setDir
  rw [lookup_map _ (setDirFn_trip_id id fwd l)]
  cases hl : lookup s j with
  | none => rfl
  | some n =>
    have hid : n.trip_id = j := lookup_trip_id s j n hl
    simp only [Option.map_some', Option.getD_some]
    unfold setDirFn
    rw [if_neg (hid ▸ hj)]

theorem dirIds_setDir_self (s : Nodes) (id : String) (fwd : Bool)
    (l : List String) (hmem : id ∈ nodeIds s) :
    dirIds fwd (setDir s id fwd l) id = l := by
  unfold dirIds setDir
  rw [lookup_map _ (setDirFn_trip_id id fwd l)]
  cases hl : lookup s id with
  | none =>
    rw [← lookup_isSome_iff, hl] at hmem
    cases hmem
  | some n =>
    have hid : n.trip_id = id := lookup_trip_id s id n hl
    simp only [Option.map_some', Option.getD_some]
    exact getDir_setDirFn_same_hit id fwd l n hid

/-- Behaviour of the `_fix_node_link_consistency` loop: ids are unchanged,
the collected `fixed` list is the existing links in order, same-direction
lists are untouched, and an id appears in an opposite-direction list
afterwards iff it was there before or it is the processed node's id
appended to a listed, existing link target. -/
theorem fixLoop_spec (i : String) (fwd : Bool) :
    ∀ (dl : List String) (s : Nodes) (acc : List String),
      nodeIds (fixLoop i fwd dl (s, acc)).1 = nodeIds s ∧
      (fixLoop i fwd dl (s, acc)).2 =
        acc ++ dl.filter (fun j => decide (j ∈ nodeIds s)) ∧
      (∀ j, dirIds fwd (fixLoop i fwd dl (s, acc)).1 j = dirIds fwd s j) ∧
      (∀ j y, y ∈ dirIds (!fwd) (fixLoop i fwd dl (s, acc)).1 j ↔
        y ∈ dirIds (!fwd) s j ∨ (y = i ∧ j ∈ dl ∧ j ∈ nodeIds s)) := by
  intro dl
  induction dl with
  | nil =>
    intro s acc
    refine ⟨rfl, by simp [fixLoop], fun j => rfl, fun j y => by simp [fixLoop]⟩
  | cons j0 rest ih =>
    intro s acc
    by_cases hj : (lookup s j0).isSome = true
    · have hjm : j0 ∈ nodeIds s := (lookup_isSome_iff s j0).mp hj
      have hstep : fixLoop i fwd (j0 :: rest) (s, acc) =
          fixLoop i fwd rest (appendOther s j0 fwd i, acc ++ [j0]) := by
        simp only [fixLoop]
        rw [if_pos hj]
      rw [hstep]
      obtain ⟨ih1, ih2, ih3, ih4⟩ := ih (appendOther s j0 fwd i) (acc ++ [j0])
      have hids : nodeIds (appendOther s j0 fwd i) = nodeIds s :=
        nodeIds_appendOther s j0 fwd i
      refine ⟨by rw [ih1, hids], ?_, ?_, ?_⟩
      · rw [ih2, hids, List.filter_cons_of_pos (by simpa using hjm)]
        simp
      · intro j
        rw [ih3 j, dirIds_appendOther_same]
      · intro j y
        rw [ih4 j y, mem_dirIds_appendOther_other, hids]
        simp only [List.mem_cons]
        constructor
        · rintro ((h | ⟨ha, hb, hc⟩) | ⟨ha, hb, hc⟩)
          · exact Or.inl h
          · exact Or.inr ⟨hb, Or.inl ha, hc⟩
          · exact Or.inr ⟨ha, Or.inr hb, hc⟩
        · rintro (h | ⟨ha, hb | hb, hc⟩)
          · exact Or.inl (Or.inl h)
          · exact Or.inl (Or.inr ⟨hb, ha, hc⟩)
          · exact Or.inr ⟨ha, hb, hc⟩
    · have hjm : ¬j0 ∈ nodeIds s := fun hm =>
        hj ((lookup_isSome_iff s j0).mpr hm)
      have hstep : fixLoop i fwd (j0 :: rest) (s, acc) =
          fixLoop i fwd rest (s, acc) := by
        simp only [fixLoop]
        rw [if_neg hj]
      rw [hstep]
      obtain ⟨ih1, ih2, ih3, ih4⟩ := ih s acc
      refine ⟨ih1, ?_, ih3, ?_⟩
      · rw [ih2, List.filter_cons_of_neg (by simpa using hjm)]
      · intro j y
        rw [ih4 j y]
        simp only [List.mem_cons]
        constructor
        · rintro (h | ⟨ha, hb, hc⟩)
          · exact Or.inl h
          · exact Or.inr ⟨ha, Or.inr hb, hc⟩
        · rintro (h | ⟨ha, hb | hb, hc⟩)
          · exact Or.inl h
          · exact absurd hc (hb ▸ hjm)
          · exact Or.inr ⟨ha, hb, hc⟩

/-- Behaviour of `_fix_node_link_consistency` for one node and direction:
ids unchanged; other nodes' same-direction lists unchanged; the processed
node's own list becomes its old list filtered to existing ids; and
opposite-direction lists gain exactly the processed id, on the nodes kept
in its fixed list. -/
theorem fixNodeDir_spec (s : Nodes) (i : String) (fwd : Bool) :
    nodeIds (fixNodeDir s i fwd) = nodeIds s ∧
    (∀ j, j ≠ i → dirIds fwd (fixNodeDir s i fwd) j = dirIds fwd s j) ∧
    dirIds fwd (fixNodeDir s i fwd) i =
      (dirIds fwd s i).filter (fun j => decide (j ∈ nodeIds s)) ∧
    (∀ j y, y ∈ dirIds (!fwd) (fixNodeDir s i fwd) j ↔
      y ∈ dirIds (!fwd) s j ∨
        (y = i ∧ j ∈ dirIds fwd (fixNodeDir s i fwd) i)) := by
  cases hlk : lookup s i with
  | none =>
    have heq : fixNodeDir s i fwd = s := by
      unfold fixNodeDir
      rw [hlk]
    have hdir : dirIds fwd s i = [] := by
      unfold dirIds
      rw [hlk]
      rfl
    rw [heq]
    refine ⟨rfl, fun j _ => rfl, by rw [hdir]; rfl, fun j y => ?_⟩
    constructor
    · intro h
      exact Or.inl h
    · rintro (h | ⟨-, h⟩)
      · exact h
      · rw [hdir] at h
        cases h
  | some n =>
    have hmem : i ∈ nodeIds s := (lookup_isSome_iff s i).mp (by rw [hlk]; rfl)
    have hdirList : (if fwd then n.next else n.previous) = dirIds fwd s i := by
      unfold dirIds getDir
      rw [hlk]
      cases fwd <;> rfl
    have heq : fixNodeDir s i fwd =
        setDir (fixLoop i fwd (if fwd then n.next else n.previous) (s, [])).1
          i fwd
          (fixLoop i fwd (if fwd then n.next else n.previous) (s, [])).2 := by
      unfold fixNodeDir
      rw [hlk]
    obtain ⟨h1, h2, h3, h4⟩ :=
      fixLoop_spec i fwd (if fwd then n.next else n.previous) s []
    have hmem1 : i ∈ nodeIds
        (fixLoop i fwd (if fwd then n.next else n.previous) (s, [])).1 := by
      rw [h1]
      exact hmem
    have c3 : dirIds fwd (fixNodeDir s i fwd) i =
        (dirIds fwd s i).filter (fun j => decide (j ∈ nodeIds s)) := by
      rw [heq, dirIds_setDir_self _ _ _ _ hmem1, h2, hdirList]
      simp
    refine ⟨by rw [heq, nodeIds_setDir, h1], ?_, c3, ?_⟩
    · intro j hji
      rw [heq, dirIds_setDir_other_node _ _ _ _ _ hji, h3 j]
    · intro j y
      rw [heq, dirIds_setDir_other_dir, h4 j y]
      constructor
      · rintro (h | ⟨ha, hb, hc⟩)
        · exact Or.inl h
        · refine Or.inr ⟨ha, ?_⟩
          rw [dirIds_setDir_self _ _ _ _ hmem1, h2]
          simp only [List.nil_append, List.mem_filter]
          exact ⟨hb, by simpa using hc⟩
      · rintro (h | ⟨ha, hb⟩)
        · exact Or.inl h
        · rw [dirIds_setDir_self _ _ _ _ hmem1, h2] at hb
          simp only [List.nil_append, List.mem_filter] at hb
          exact Or.inr ⟨ha, hb.1, by simpa using hb.2⟩

/-- Fixing a node in a direction establishes link symmetry for that node
and direction. -/
theorem symDir_establish (s : Nodes) (ids0 : List String) (i : String)
    (fwd : Bool) (hids : nodeIds s = ids0) :
    SymDir fwd (fixNodeDir s i fwd) ids0 i := by
  obtain ⟨h1, h2, h3, h4⟩ := fixNodeDir_spec s i fwd
  intro j hj
  have hj' := hj
  rw [h3, List.mem_filter] at hj'
  refine ⟨hids ▸ (by simpa using hj'.2), ?_⟩
  exact (h4 j i).mpr (Or.inr ⟨rfl, hj⟩)

/-- Fixing any node in any direction preserves an established symmetry for
a node already known to exist. -/
theorem symDir_preserve (s : Nodes) (ids0 : List String) (i : String)
    (fwd : Bool) (d : Bool) (i0 : String) (hids : nodeIds s = ids0)
    (hi0 : i0 ∈ ids0) (hsym : SymDir d s ids0 i0) :
    SymDir d (fixNodeDir s i fwd) ids0 i0 := by
  obtain ⟨h1, h2, h3, h4⟩ := fixNodeDir_spec s i fwd
  intro j hj
  by_cases hd : d = fwd
  · subst hd
    have hj' : j ∈ dirIds d s i0 := by
      by_cases hii : i0 = i
      · subst hii
        rw [h3, List.mem_filter] at hj
        exact hj.1
      · rw [h2 i0 hii] at hj
        exact hj
    obtain ⟨hjid, hrev⟩ := hsym j hj'
    exact ⟨hjid, (h4 j i0).mpr (Or.inl hrev)⟩
  · have hd' : d = !fwd := by
      cases d <;> cases fwd <;> simp_all
    subst hd'
    rcases (h4 i0 j).mp hj with hold | ⟨hji, hmem⟩
    · obtain ⟨hjid, hrev⟩ := hsym j hold
      rw [Bool.not_not] at hrev
      refine ⟨hjid, ?_⟩
      rw [Bool.not_not]
      by_cases hji : j = i
      · subst hji
        rw [h3, List.mem_filter]
        exact ⟨hrev, by simp [hids ▸ hi0]⟩
      · rw [h2 j hji]
        exact hrev
    · refine ⟨?_, ?_⟩
      · have hown := mem_dirIds_owner fwd (fixNodeDir s i fwd) i i0 hmem
        rw [h1, hids] at hown
        rw [hji]
        exact hown
      · rw [Bool.not_not, hji]
        exact hmem

/-- The per-node pass of `fix_link_consistency`, folded over any worklist
of ids drawn from the dict, keeps all ids and accumulates both-direction
link symmetry for every processed id. -/
theorem fixFold_inv (ids0 : List String) :
    ∀ (todo : List String) (s : Nodes) (P : List String),
      nodeIds s = ids0 →
      (∀ t ∈ todo, t ∈ ids0) →
      (∀ i0 ∈ P, i0 ∈ ids0 ∧ SymDir true s ids0 i0 ∧
        SymDir false s ids0 i0) →
      nodeIds (todo.foldl
        (fun acc id => fixNodeDir (fixNodeDir acc id true) id false) s) =
        ids0 ∧
      (∀ i0, i0 ∈ P ∨ i0 ∈ todo →
        SymDir true (todo.foldl
          (fun acc id => fixNodeDir (fixNodeDir acc id true) id false) s)
          ids0 i0 ∧
        SymDir false (todo.foldl
          (fun acc id => fixNodeDir (fixNodeDir acc id true) id false) s)
          ids0 i0) := by
  intro todo
  induction todo with
  | nil =>
    intro s P hids htodo hP
    refine ⟨hids, ?_⟩
    intro i0 hi0
    rcases hi0 with h | h
    · exact (hP i0 h).2
    · cases h
  | cons i rest ih =>
    intro s P hids htodo hP
    have hiids : i ∈ ids0 := htodo i (List.mem_cons_self _ _)
    have hids1 : nodeIds (fixNodeDir s i true) = ids0 := by
      rw [(fixNodeDir_spec s i true).1, hids]
    have hids2 : nodeIds (fixNodeDir (fixNodeDir s i true) i false) = ids0 := by
      rw [(fixNodeDir_spec _ i false).1, hids1]
    have hP2 : ∀ i0 ∈ P ++ [i], i0 ∈ ids0 ∧
        SymDir true (fixNodeDir (fixNodeDir s i true) i false) ids0 i0 ∧
        SymDir false (fixNodeDir (fixNodeDir s i true) i false) ids0 i0 := by
      intro i0 hi0
      rcases List.mem_append.mp hi0 with h | h
      · obtain ⟨ha, hb, hc⟩ := hP i0 h
        refine ⟨ha, ?_, ?_⟩
        · exact symDir_preserve _ ids0 i false true i0 hids1 ha
            (symDir_preserve s ids0 i true true i0 hids ha hb)
        · exact symDir_preserve _ ids0 i false false i0 hids1 ha
            (symDir_preserve s ids0 i true false i0 hids ha hc)
      · have h' : i0 = i := by simpa using h
        subst h'
        refine ⟨hiids, ?_, ?_⟩
        · exact symDir_preserve _ ids0 i0 false true i0 hids1 hiids
            (symDir_establish s ids0 i0 true hids)
        · exact symDir_establish _ ids0 i0 false hids1
    have hrec := ih (fixNodeDir (fixNodeDir s i true) i false) (P ++ [i]) hids2
      (fun t ht => htodo t (List.mem_cons_of_mem _ ht)) hP2
    refine ⟨?_, ?_⟩
    · rw [List.foldl_cons]
      exact hrec.1
    · intro i0 hi0
      rw [List.foldl_cons]
      apply hrec.2
      rcases hi0 with h | h
      · exact Or.inl (List.mem_append.mpr (Or.inl h))
      · rcases List.mem_cons.mp h with h | h
        · exact Or.inl (List.mem_append.mpr (Or.inr (by simp [h])))
        · exact Or.inr h

/-- C10: after `fix_link_consistency`, the link graph is symmetric and
closed — for all nodes `X`, `Y` of the dict, `Y` is in `X.next` iff `X` is
in `Y.previous`, and every id referenced by a `next` or `previous` list is
the id of a node of the dict (dangling references have been removed). -/
theorem linkConsistencySymmetric (nodes : Nodes)
    (hnodup : (nodes.map (fun n => n.trip_id)).Nodup) :
    (∀ x ∈ fixLinkConsistency nodes, ∀ y ∈ fixLinkConsistency nodes,
      (y.trip_id ∈ x.next ↔ x.trip_id ∈ y.previous)) ∧
    (∀ x ∈ fixLinkConsistency nodes, ∀ j, j ∈ x.next ∨ j ∈ x.previous →
      ∃ y ∈ fixLinkConsistency nodes, y.trip_id = j) := by
  have hfold := fixFold_inv (nodeIds nodes) (nodeIds nodes) nodes []
    rfl (fun t ht => ht) (by intro i0 h; cases h)
  have hfix : fixLinkConsistency nodes =
      (nodeIds nodes).foldl
        (fun acc id => fixNodeDir (fixNodeDir acc id true) id false)
        nodes := rfl
  rw [← hfix] at hfold
  have hidsF : nodeIds (fixLinkConsistency nodes) = nodeIds nodes := hfold.1
  have hnodupF : ((fixLinkConsistency nodes).map
      (fun n => n.trip_id)).Nodup := by
    have : (fixLinkConsistency nodes).map (fun n => n.trip_id) =
        nodes.map (fun n => n.trip_id) := hidsF
    rw [this]
    exact hnodup
  have hlkF := lookup_self (fixLinkConsistency nodes) hnodupF
  have hdirT : ∀ x ∈ fixLinkConsistency nodes,
      dirIds true (fixLinkConsistency nodes) x.trip_id = x.next := by
    intro x hx
    unfold dirIds
    rw [hlkF x hx]
    rfl
  have hdirF : ∀ x ∈ fixLinkConsistency nodes,
      dirIds false (fixLinkConsistency nodes) x.trip_id = x.previous := by
    intro x hx
    unfold dirIds
    rw [hlkF x hx]
    rfl
  have hsym : ∀ x ∈ fixLinkConsistency nodes,
      SymDir true (fixLinkConsistency nodes) (nodeIds nodes) x.trip_id ∧
      SymDir false (fixLinkConsistency nodes) (nodeIds nodes) x.trip_id := by
    intro x hx
    apply hfold.2
    refine Or.inr ?_
    rw [← hidsF]
    exact List.mem_map.mpr ⟨x, hx, rfl⟩
  constructor
  · intro x hx y hy
    constructor
    · intro hxy
      have h := ((hsym x hx).1 y.trip_id (by rw [hdirT x hx]; exact hxy)).2
      rw [show (!true) = false from rfl, hdirF y hy] at h
      exact h
    · intro hyx
      have h := ((hsym y hy).2 x.trip_id (by rw [hdirF y hy]; exact hyx)).2
      rw [show (!false) = true from rfl, hdirT x hx] at h
      exact h
  · intro x hx j hj
    have hjids : j ∈ nodeIds nodes := by
      rcases hj with h | h
      · exact ((hsym x hx).1 j (by rw [hdirT x hx]; exact h)).1
      · exact ((hsym x hx).2 j (by rw [hdirF x hx]; exact h)).1
    rw [← hidsF] at hjids
    rcases List.mem_map.mp hjids with ⟨y, hy, hyj⟩
    exact ⟨y, hy, hyj⟩

/-- C10 (witness): the theorem applied to the concrete node set with a
dangling and an asymmetric link. -/
theorem linkConsistencySymmetric_witness :
    ((linkFixNodes.map (fun n => n.trip_id)).Nodup) ∧
    (∀ x ∈ fixLinkConsistency linkFixNodes,
      ∀ y ∈ fixLinkConsistency linkFixNodes,
      (y.trip_id ∈ x.next ↔ x.trip_id ∈ y.previous)) ∧
    (∀ x ∈ fixLinkConsistency linkFixNodes, ∀ j,
      j ∈ x.next ∨ j ∈ x.previous →
      ∃ y ∈ fixLinkConsistency linkFixNodes, y.trip_id = j) :=
  ⟨by decide, (linkConsistencySymmetric linkFixNodes (by decide)).1,
    (linkConsistencySymmetric linkFixNodes (by decide)).2⟩

/-- C5 (witness): the theorem applied to the concrete split component
`t1 → t2 → {b1, b2}`. -/
theorem singleForkSplitTwoBlocks_witness :
    findAllBlocks (splitTrunk ++ [splitB1, splitB2]) = some
      [updateLast (fun n => { n with next := [splitB1.trip_id] })
          (splitTrunk.map (fun n =>
            { n with destinations := splitB1.destinations, clone_with_suffix := "" }))
          ++ [splitB1],
       updateLast (fun n => { n with next := [splitB2.trip_id] })
          (splitTrunk.map (fun n =>
            { n with destinations := splitB2.destinations, clone_with_suffix := ".2" }))
          ++ [splitB2]] :=
  singleForkSplitTwoBlocks splitTrunk splitB1 splitB2 (by decide) (by decide)
    (by decide) (by decide) (by decide) (by decide) (by decide)

end GenBlocks

open BlockSolver in
/-- C1 (evaluation at the failing input): a component with two independent
split forks (`2` and `4` both have two next trains). The miswritten check
`splits > 2 or splits > 2 or (merges > 1 and splits > 1)` does not fire:
instead of raising a block-topology error and contributing zero blocks, the
solver succeeds and assigns three blocks. -/
theorem twoSplitComponentNotRejected :
    (solveLoop twoSplitSolver 7).toOption.map (fun p => p.2) =
      some [["1", "2", "3"], ["1", "2", "4", "5"], ["1", "2", "4", "6"]] ∧
    (solveLoop twoSplitSolver 7).toOption.map (fun p => getBlock p.1 "1") =
      some ["g.1", "g.2", "g.3"] := by
  decide

/-! ### C8: the block simplifier -/

namespace SimplifyBlocks

theorem maxByScore_mem : ∀ (l : List TripWithTimes) (t : TripWithTimes),
    maxByScore t l ∈ t :: l := by
  intro l
  induction l with
  | nil =>
    intro t
    simp [maxByScore]
  | cons u rest ih =>
    intro t
    show maxByScore (if scoreGt (score_base_candidate u) (score_base_candidate t)
      then u else t) rest ∈ t :: u :: rest
    by_cases h : scoreGt (score_base_candidate u) (score_base_candidate t)
    · rw [if_pos h]
      rcases List.mem_cons.mp (ih u) with h' | h'
      · rw [h']
        exact List.mem_cons_of_mem _ (List.mem_cons_self _ _)
      · exact List.mem_cons_of_mem _ (List.mem_cons_of_mem _ h')
    · rw [if_neg h]
      rcases List.mem_cons.mp (ih t) with h' | h'
      · rw [h']
        exact List.mem_cons_self _ _
      · exact List.mem_cons_of_mem _ (List.mem_cons_of_mem _ h')

theorem mergeGo_head_arrival : ∀ (L : List StopTime) (c : StopTime) (idx : Nat),
    ((mergeGo (some c) idx L).headD dummyStopTime).arrival_time =
      c.arrival_time := by
  intro L
  induction L with
  | nil =>
    intro c idx
    simp [mergeGo]
  | cons incoming rest ih =>
    intro c idx
    simp only [mergeGo]
    by_cases h : same_stop c.stop_id incoming.stop_id
    · rw [if_pos h]
      rw [ih]
    · rw [if_neg h]
      simp

theorem merge_trips_first_time (t : TripWithTimes) (rest : List TripWithTimes)
    (h : t.times ≠ []) :
    first_time (merge_trips (t :: rest)) = first_time t := by
  cases hts : t.times with
  | nil => exact absurd hts h
  | cons s ss =>
    show first_time
      ⟨(maxByScore t rest).trip, get_merged_stop_times (t :: rest)⟩ =
      first_time t
    unfold first_time get_merged_stop_times
    rw [List.map_cons, List.flatten_cons, hts]
    dsimp only
    rw [List.cons_append]
    rw [show mergeGo none 0 (s :: (ss ++ (rest.map (fun t => t.times)).flatten)) =
      mergeGo (some { s with stop_sequence := 0 }) 1
        (ss ++ (rest.map (fun t => t.times)).flatten) from rfl]
    rw [mergeGo_head_arrival]
    simp

theorem collapse_first_time (t : TripWithTimes) (g : List TripWithTimes)
    (h : t.times ≠ []) :
    first_time (collapseRun (t :: g)) = first_time t := by
  cases g with
  | nil => simp [collapseRun]
  | cons u g' =>
    rw [collapseRun, if_pos (by simp)]
    exact merge_trips_first_time t (u :: g') h

theorem splitRuns_shape : ∀ (rest : List TripWithTimes) (t : TripWithTimes),
    ∃ g gs, splitRuns (t :: rest) = (t :: g) :: gs := by
  intro rest
  induction rest with
  | nil =>
    intro t
    exact ⟨[], [], rfl⟩
  | cons u rest' ih =>
    intro t
    obtain ⟨g', gs', hsh⟩ := ih u
    have heq : splitRuns (t :: u :: rest') =
        if t.trip.route_id = u.trip.route_id then (t :: u :: g') :: gs'
        else [t] :: (u :: g') :: gs' := by
      rw [splitRuns, hsh]
    by_cases hr : t.trip.route_id = u.trip.route_id
    · exact ⟨u :: g', gs', by rw [heq, if_pos hr]⟩
    · exact ⟨[], (u :: g') :: gs', by rw [heq, if_neg hr]⟩

theorem splitRuns_routeConst : ∀ (l : List TripWithTimes),
    ∀ g ∈ splitRuns l, ∀ x ∈ g,
      x.trip.route_id = (g.headD dummyTrip).trip.route_id := by
  intro l
  induction l with
  | nil =>
    intro g hg
    simp [splitRuns] at hg
  | cons t rest ih =>
    intro g hg x hx
    cases rest with
    | nil =>
      simp only [splitRuns, List.mem_singleton] at hg
      subst hg
      simp only [List.mem_singleton] at hx
      subst hx
      rfl
    | cons u rest' =>
      obtain ⟨g', gs', hsh⟩ := splitRuns_shape rest' u
      have heq : splitRuns (t :: u :: rest') =
          if t.trip.route_id = u.trip.route_id then (t :: u :: g') :: gs'
          else [t] :: (u :: g') :: gs' := by
        rw [splitRuns, hsh]
      by_cases hr : t.trip.route_id = u.trip.route_id
      · rw [heq, if_pos hr] at hg
        rcases List.mem_cons.mp hg with hg | hg
        · subst hg
          rcases List.mem_cons.mp hx with hx | hx
          · subst hx
            rfl
          · have hchunk : (u :: g') ∈ splitRuns (u :: rest') := by
              rw [hsh]
              exact List.mem_cons_self _ _
            have hx' := ih (u :: g') hchunk x hx
            simp only [List.headD_cons] at hx' ⊢
            rw [hx', ← hr]
        · have hchunk : g ∈ splitRuns (u :: rest') := by
            rw [hsh]
            exact List.mem_cons_of_mem _ hg
          exact ih g hchunk x hx
      · rw [heq, if_neg hr] at hg
        rcases List.mem_cons.mp hg with hg | hg
        · subst hg
          simp only [List.mem_singleton] at hx
          subst hx
          rfl
        · have hchunk : g ∈ splitRuns (u :: rest') := by
            rw [hsh]
            exact hg
          exact ih g hchunk x hx

theorem collapse_route (t : TripWithTimes) (g : List TripWithTimes)
    (hconst : ∀ x ∈ t :: g, x.trip.route_id = t.trip.route_id) :
    (collapseRun (t :: g)).trip.route_id = t.trip.route_id := by
  cases g with
  | nil => simp [collapseRun]
  | cons u g' =>
    rw [collapseRun, if_pos (by simp)]
    show (maxByScore t (u :: g')).trip.route_id = t.trip.route_id
    exact hconst _ (maxByScore_mem (u :: g') t)

theorem mergeBlockTrips_of_shape (l : List TripWithTimes)
    (G : List TripWithTimes) (GS : List (List TripWithTimes))
    (h : splitRuns l = G :: GS) :
    mergeBlockTrips l = collapseRun G :: GS.map collapseRun := by
  unfold mergeBlockTrips
  rw [h, List.map_cons]

theorem mergeBlockTrips_sorted_chain : ∀ (l : List TripWithTimes),
    l.Pairwise (fun a b => first_time a ≤ first_time b) →
    (∀ x ∈ l, x.times ≠ []) →
    (mergeBlockTrips l).Pairwise (fun a b => first_time a ≤ first_time b) ∧
    (mergeBlockTrips l).Chain' (fun a b => a.trip.route_id ≠ b.trip.route_id) ∧
    (l ≠ [] →
      first_time ((mergeBlockTrips l).headD dummyTrip) =
        first_time (l.headD dummyTrip) ∧
      ((mergeBlockTrips l).headD dummyTrip).trip.route_id =
        (l.headD dummyTrip).trip.route_id ∧
      mergeBlockTrips l ≠ []) := by
  intro l
  induction l with
  | nil =>
    intro _ _
    exact ⟨by simp [mergeBlockTrips, splitRuns],
      by simp [mergeBlockTrips, splitRuns], fun h => absurd rfl h⟩
  | cons t rest ih =>
    intro hpair htimes
    have htt : t.times ≠ [] := htimes t (List.mem_cons_self _ _)
    cases rest with
    | nil =>
      have h1 : mergeBlockTrips [t] = [t] := by
        rw [mergeBlockTrips_of_shape [t] [t] [] rfl]
        simp [collapseRun]
      rw [h1]
      exact ⟨by simp, by simp, fun _ => ⟨rfl, rfl, by simp⟩⟩
    | cons u rest' =>
      obtain ⟨g', gs', hsh⟩ := splitRuns_shape rest' u
      have heq : splitRuns (t :: u :: rest') =
          if t.trip.route_id = u.trip.route_id then (t :: u :: g') :: gs'
          else [t] :: (u :: g') :: gs' := by
        rw [splitRuns, hsh]
      have hpair' : (u :: rest').Pairwise
          (fun a b => first_time a ≤ first_time b) :=
        (List.pairwise_cons.mp hpair).2
      have htimes' : ∀ x ∈ u :: rest', x.times ≠ [] :=
        fun x hx => htimes x (List.mem_cons_of_mem _ hx)
      have htu : first_time t ≤ first_time u :=
        (List.pairwise_cons.mp hpair).1 u (List.mem_cons_self _ _)
      have hut : u.times ≠ [] := htimes' u (List.mem_cons_self _ _)
      obtain ⟨ihp, ihc, ihh⟩ := ih hpair' htimes'
      have hM : mergeBlockTrips (u :: rest') =
          collapseRun (u :: g') :: gs'.map collapseRun :=
        mergeBlockTrips_of_shape _ _ _ hsh
      have hCft : first_time (collapseRun (u :: g')) = first_time u :=
        collapse_first_time u g' hut
      have hchunkmem : (u :: g') ∈ splitRuns (u :: rest') := by
        rw [hsh]
        exact List.mem_cons_self _ _
      have hconstU : ∀ x ∈ u :: g', x.trip.route_id = u.trip.route_id := by
        intro x hx
        have := splitRuns_routeConst (u :: rest') (u :: g') hchunkmem x hx
        simpa using this
      have hCrt : (collapseRun (u :: g')).trip.route_id = u.trip.route_id :=
        collapse_route u g' hconstU
      have ihpM := hM ▸ ihp
      have ihcM := hM ▸ ihc
      by_cases hr : t.trip.route_id = u.trip.route_id
      · have hNew : mergeBlockTrips (t :: u :: rest') =
            collapseRun (t :: u :: g') :: gs'.map collapseRun :=
          mergeBlockTrips_of_shape _ _ _ (by rw [heq, if_pos hr])
        have hDft : first_time (collapseRun (t :: u :: g')) = first_time t :=
          collapse_first_time t (u :: g') htt
        have hchunkmem2 : (t :: u :: g') ∈ splitRuns (t :: u :: rest') := by
          rw [heq, if_pos hr]
          exact List.mem_cons_self _ _
        have hconstT : ∀ x ∈ t :: u :: g',
            x.trip.route_id = t.trip.route_id := by
          intro x hx
          have := splitRuns_routeConst (t :: u :: rest') (t :: u :: g')
            hchunkmem2 x hx
          simpa using this
        have hDrt : (collapseRun (t :: u :: g')).trip.route_id =
            t.trip.route_id :=
          collapse_route t (u :: g') hconstT
        refine ⟨?_, ?_, fun _ => ?_⟩
        · rw [hNew]
          refine List.pairwise_cons.mpr ⟨?_, (List.pairwise_cons.mp ihpM).2⟩
          intro y hy
          have h2 := (List.pairwise_cons.mp ihpM).1 y hy
          rw [hCft] at h2
          calc first_time (collapseRun (t :: u :: g')) = first_time t := hDft
            _ ≤ first_time u := htu
            _ ≤ first_time y := h2
        · rw [hNew]
          rw [List.chain'_cons']
          refine ⟨?_, (List.chain'_cons'.mp ihcM).2⟩
          intro y hy
          have hc := (List.chain'_cons'.mp ihcM).1 y hy
          rw [hCrt] at hc
          rw [hDrt, hr]
          exact hc
        · rw [hNew]
          exact ⟨by simpa using hDft, by simpa using hDrt, by simp⟩
      · have hNew : mergeBlockTrips (t :: u :: rest') =
            collapseRun [t] :: ((u :: g') :: gs').map collapseRun :=
          mergeBlockTrips_of_shape _ _ _ (by rw [heq, if_neg hr])
        have hsingle : collapseRun [t] = t := by simp [collapseRun]
        have hMap : ((u :: g') :: gs').map collapseRun =
            mergeBlockTrips (u :: rest') := by
          rw [List.map_cons]
          exact hM.symm
        rw [hsingle, hMap] at hNew
        refine ⟨?_, ?_, fun _ => ?_⟩
        · rw [hNew]
          refine List.pairwise_cons.mpr ⟨?_, ihp⟩
          intro y hy
          rw [hM] at hy
          rcases List.mem_cons.mp hy with hy' | hy'
          · rw [hy', hCft]
            exact htu
          · have h2 := (List.pairwise_cons.mp ihpM).1 y hy'
            rw [hCft] at h2
            exact Nat.le_trans htu h2
        · rw [hNew]
          rw [List.chain'_cons']
          refine ⟨?_, ihc⟩
          intro y hy
          rw [hM] at hy
          simp only [List.head?_cons, Option.mem_def, Option.some.injEq] at hy
          rw [← hy, hCrt]
          exact hr
        · rw [hNew]
          exact ⟨rfl, rfl, by simp⟩



theorem splitRuns_of_chain : ∀ (l : List TripWithTimes),
    l.Chain' (fun a b => a.trip.route_id ≠ b.trip.route_id) →
    splitRuns l = l.map (fun t => [t]) := by
  intro l
  induction l with
  | nil => intro _; rfl
  | cons t rest ih =>
    intro hc
    cases rest with
    | nil => rfl
    | cons u rest' =>
      have hih := ih (List.chain'_cons.mp hc).2
      have hr : t.trip.route_id ≠ u.trip.route_id := (List.chain'_cons.mp hc).1
      rw [splitRuns, hih, List.map_cons]
      dsimp only
      rw [if_neg hr]
      rfl

theorem mergeBlockTrips_of_chain (l : List TripWithTimes)
    (hc : l.Chain' (fun a b => a.trip.route_id ≠ b.trip.route_id)) :
    mergeBlockTrips l = l := by
  rw [mergeBlockTrips, splitRuns_of_chain l hc, List.map_map]
  have : (collapseRun ∘ fun t => [t]) = id := by
    funext t
    simp [collapseRun]
  rw [this, List.map_id]

theorem mergeSort_idem (trips : List TripWithTimes)
    (H : ∀ x ∈ trips, x.times ≠ []) :
    mergeBlockTrips (sortTrips (mergeBlockTrips (sortTrips trips))) =
      mergeBlockTrips (sortTrips trips) := by
  haveI hTot : IsTotal TripWithTimes
      (fun a b => first_time a ≤ first_time b) :=
    ⟨fun a b => Nat.le_total _ _⟩
  haveI hTrans : IsTrans TripWithTimes
      (fun a b => first_time a ≤ first_time b) :=
    ⟨fun _ _ _ => Nat.le_trans⟩
  have hsorted : (sortTrips trips).Pairwise
      (fun a b => first_time a ≤ first_time b) :=
    List.sorted_insertionSort _ trips
  have htimes : ∀ x ∈ sortTrips trips, x.times ≠ [] := by
    intro x hx
    exact H x ((List.mem_insertionSort _).mp hx)
  obtain ⟨hp, hc, _⟩ :=
    mergeBlockTrips_sorted_chain (sortTrips trips) hsorted htimes
  have hsid : sortTrips (mergeBlockTrips (sortTrips trips)) =
      mergeBlockTrips (sortTrips trips) :=
    List.Sorted.insertionSort_eq hp
  rw [hsid]
  exact mergeBlockTrips_of_chain _ hc

theorem elementIdem (b : Option String × List TripWithTimes)
    (hb : ∀ x ∈ b.2, x.times ≠ []) :
    removeStep (mergeStep (removeStep (mergeStep b))) =
      removeStep (mergeStep b) := by
  obtain ⟨oid, trips⟩ := b
  cases oid with
  | none => simp [mergeStep, removeStep]
  | some i =>
    by_cases hsel : selectBlock trips
    · have hms : mergeStep (some i, trips) =
          (some i, mergeBlockTrips (sortTrips trips)) := by
        rw [mergeStep, if_pos ⟨rfl, hsel⟩]
      rw [hms]
      by_cases hlen : (mergeBlockTrips (sortTrips trips)).length = 1
      · have hrs : removeStep (some i, mergeBlockTrips (sortTrips trips)) =
            (none, mergeBlockTrips (sortTrips trips)) := by
          rw [removeStep, if_pos ⟨rfl, hlen⟩]
        rw [hrs]
        simp [mergeStep, removeStep]
      · have hrs : removeStep (some i, mergeBlockTrips (sortTrips trips)) =
            (some i, mergeBlockTrips (sortTrips trips)) := by
          rw [removeStep, if_neg]
          rintro ⟨-, h2⟩
          exact hlen h2
        rw [hrs]
        have hms2 : mergeStep (some i, mergeBlockTrips (sortTrips trips)) =
            (some i, mergeBlockTrips (sortTrips trips)) := by
          rw [mergeStep]
          by_cases hsel2 : selectBlock (mergeBlockTrips (sortTrips trips))
          · rw [if_pos ⟨rfl, hsel2⟩, mergeSort_idem trips hb]
          · rw [if_neg]
            rintro ⟨-, h2⟩
            exact hsel2 h2
        rw [hms2, hrs]
    · have hms : mergeStep (some i, trips) = (some i, trips) := by
        rw [mergeStep, if_neg]
        rintro ⟨-, h2⟩
        exact hsel h2
      rw [hms]
      by_cases hlen : trips.length = 1
      · have hrs : removeStep (some i, trips) = (none, trips) := by
          rw [removeStep, if_pos ⟨rfl, hlen⟩]
        rw [hrs]
        simp [mergeStep, removeStep]
      · have hrs : removeStep (some i, trips) = (some i, trips) := by
          rw [removeStep, if_neg]
          rintro ⟨-, h2⟩
          exact hlen h2
        rw [hrs, hms, hrs]

/-- C8 (amended): the block simplifier is idempotent — a second pass over
already-simplified state changes nothing (for states whose trips all have
at least one stop time, as the source's `first_time` requires). -/
theorem simplifyBlocksIdempotent (st : List (Option String × List TripWithTimes))
    (H : ∀ b ∈ st, ∀ x ∈ b.2, x.times ≠ []) :
    runPass (runPass st) = runPass st := by
  induction st with
  | nil => rfl
  | cons b rest ih =>
    have hstep : ∀ s : List (Option String × List TripWithTimes), ∀ c,
        runPass (c :: s) = removeStep (mergeStep c) :: runPass s := by
      intro s c
      rfl
    rw [hstep, hstep]
    rw [elementIdem b (H b (List.mem_cons_self _ _))]
    rw [ih (fun b' hb' => H b' (List.mem_cons_of_mem _ hb'))]

/-- C8 (counterexample): the selected and processed block
`[A1 (route r), B (route q), A2 (route r)]` comes out of one simplifier
pass unchanged, still holding two distinct trips that share route,
calendar, short name and headsign on a non-allow-listed route — merging
only acts on *consecutive* same-route runs, so the claim's "no block
contains more than one trip sharing ..." postcondition fails. -/
theorem simplifierLeavesDuplicateSignature_cex :
    runPass cexState = cexState ∧
    (some "b", [cexTripA1, cexTripB, cexTripA2]) ∈ runPass cexState ∧
    cexTripA1 ∈ [cexTripA1, cexTripB, cexTripA2] ∧
    cexTripA2 ∈ [cexTripA1, cexTripB, cexTripA2] ∧
    cexTripA1.trip.id ≠ cexTripA2.trip.id ∧
    cexTripA1.trip.route_id = cexTripA2.trip.route_id ∧
    cexTripA1.trip.calendar_id = cexTripA2.trip.calendar_id ∧
    cexTripA1.trip.short_name = cexTripA2.trip.short_name ∧
    cexTripA1.trip.headsign = cexTripA2.trip.headsign ∧
    cexTripA1.trip.route_id ≠ "JR-East.NaritaExpress" ∧
    cexTripA1.trip.route_id ≠ "JR-East.Musashino" ∧
    selectBlock [cexTripA1, cexTripB, cexTripA2] = true := by
  decide

/-- C8 (witness): the idempotence theorem applied to the concrete
one-block state. -/
theorem simplifyBlocksIdempotent_witness :
    (∀ b ∈ cexState, ∀ x ∈ b.2, x.times ≠ []) ∧
    runPass (runPass cexState) = runPass cexState :=
  ⟨by decide, simplifyBlocksIdempotent cexState (by decide)⟩

end SimplifyBlocks

/-! ### C4: calendar resolution -/

namespace CalendarHandler

theorem find?_eq_some_split {α : Type} (p : α → Bool) (l : List α) (c : α) :
    l.find? p = some c ↔
      ∃ pre post, l = pre ++ c :: post ∧ p c = true ∧ ∀ x ∈ pre, p x = false := by
  induction l with
  | nil => simp
  | cons a tl ih =>
    by_cases pa : p a
    · rw [List.find?_cons_of_pos _ pa]
      constructor
      · rintro h
        rw [Option.some.injEq] at h
        exact ⟨[], tl, by simp [h], h ▸ pa, by simp⟩
      · rintro ⟨pre, post, heq, pc, hpre⟩
        cases pre with
        | nil =>
          simp only [List.nil_append, List.cons.injEq] at heq
          rw [heq.1]
        | cons b pre' =>
          simp only [List.cons_append, List.cons.injEq] at heq
          have : p a = false := heq.1 ▸ hpre b (List.mem_cons_self _ _)
          rw [pa] at this
          exact absurd this (by simp)
    · rw [List.find?_cons_of_neg _ pa, ih]
      constructor
      · rintro ⟨pre, post, heq, pc, hpre⟩
        refine ⟨a :: pre, post, by simp [heq], pc, ?_⟩
        intro x hx
        rcases List.mem_cons.mp hx with h | h
        · rw [h]
          exact Bool.eq_false_iff.mpr pa
        · exact hpre x h
      · rintro ⟨pre, post, heq, pc, hpre⟩
        cases pre with
        | nil =>
          simp only [List.nil_append, List.cons.injEq] at heq
          rw [heq.1] at pa
          exact absurd pc pa
        | cons b pre' =>
          simp only [List.cons_append, List.cons.injEq] at heq
          exact ⟨pre', post, heq.2, pc, fun x hx =>
            hpre x (List.mem_cons_of_mem _ hx)⟩

/-- Membership in the builtin fallback: exactly the first entry of the
priority bucket that the route uses. -/
theorem builtin_mem (u : List String) (w : Int) (c : String) :
    c ∈ (match (built_ins_priority w).find? (fun c => decide (c ∈ u)) with
      | some c => [c]
      | none => []) ↔
    ∃ pre post, built_ins_priority w = pre ++ c :: post ∧ c ∈ u ∧
      ∀ x ∈ pre, x ∉ u := by
  cases hf : (built_ins_priority w).find? (fun c => decide (c ∈ u)) with
  | none =>
    simp only [List.not_mem_nil, false_iff]
    rintro ⟨pre, post, heq, pc, hpre⟩
    have : (built_ins_priority w).find? (fun c => decide (c ∈ u)) = some c :=
      (find?_eq_some_split _ _ _).mpr
        ⟨pre, post, heq, by simpa using pc, fun x hx => by simpa using hpre x hx⟩
    rw [hf] at this
    exact absurd this (by simp)
  | some c' =>
    simp only [List.mem_singleton]
    constructor
    · rintro rfl
      rcases (find?_eq_some_split _ _ _).mp hf with ⟨pre, post, heq, pc, hpre⟩
      exact ⟨pre, post, heq, by simpa using pc, fun x hx => by simpa using hpre x hx⟩
    · rintro ⟨pre, post, heq, pc, hpre⟩
      have : (built_ins_priority w).find? (fun c => decide (c ∈ u)) = some c :=
        (find?_eq_some_split _ _ _).mpr
          ⟨pre, post, heq, by simpa using pc, fun x hx => by simpa using hpre x hx⟩
      rw [hf] at this
      exact (Option.some.injEq _ _ ▸ this).symm

theorem builtin_len (u : List String) (w : Int) :
    (match (built_ins_priority w).find? (fun c => decide (c ∈ u)) with
      | some c => [c]
      | none => ([] : List String)).length ≤ 1 := by
  cases hf : (built_ins_priority w).find? (fun c => decide (c ∈ u)) <;> simp

/-- C4: for any route's used-calendar set and any date, the active
services of `CalendarHandler.export` are exactly: the used specific
calendars containing the date when any exist; otherwise at most one
builtin — the first entry of the effective weekday bucket's priority list
that the route uses, where a national holiday forces the `-1` (Holiday)
bucket regardless of the true weekday. -/
theorem calendarResolutionExact (u : List String) (holidays : List Nat)
    (special : List (Nat × List String)) (d : Nat) :
    (d ∈ holidays → effectiveWeekday holidays d = -1) ∧
    ((∃ c' ∈ (dictGet special d).getD [], c' ∈ u) →
      ∀ c, c ∈ activeServices u holidays special d ↔
        c ∈ (dictGet special d).getD [] ∧ c ∈ u) ∧
    ((¬∃ c' ∈ (dictGet special d).getD [], c' ∈ u) →
      (∀ c, c ∈ activeServices u holidays special d ↔
        ∃ pre post, built_ins_priority (effectiveWeekday holidays d) =
          pre ++ c :: post ∧ c ∈ u ∧ ∀ x ∈ pre, x ∉ u) ∧
      (activeServices u holidays special d).length ≤ 1) := by
  refine ⟨fun h => by simp [effectiveWeekday, h], ?_, ?_⟩
  · intro hex c
    unfold activeServices
    cases hsp : dictGet special d with
    | none =>
      rw [hsp] at hex
      simp at hex
    | some sp =>
      rw [hsp] at hex
      simp only [Option.getD_some] at hex
      have hne : sp.filter (fun c => decide (c ∈ u)) ≠ [] := by
        rcases hex with ⟨c', hc', hcu⟩
        intro hnil
        have := List.filter_eq_nil_iff.mp hnil c' hc'
        simp [hcu] at this
      simp only [hsp, Option.getD_some]
      rw [if_pos hne, List.mem_filter]
      simp
  · intro hnex
    unfold activeServices
    cases hsp : dictGet special d with
    | none =>
      simp only [hsp]
      constructor
      · intro c
        exact builtin_mem u _ c
      · exact builtin_len u _
    | some sp =>
      rw [hsp] at hnex
      simp only [Option.getD_some] at hnex
      have hnil : sp.filter (fun c => decide (c ∈ u)) = [] := by
        rw [List.filter_eq_nil_iff]
        intro c' hc'
        simp only [decide_eq_true_eq]
        exact fun hcu => hnex ⟨c', hc', hcu⟩
      simp only [hsp]
      constructor
      · intro c
        rw [if_neg (by simp [hnil])]
        exact builtin_mem u _ c
      · rw [if_neg (by simp [hnil])]
        exact builtin_len u _

/-- C4 (witness): a route using Saturday and SaturdayHoliday, a national
holiday on a Tuesday (day 8 from a Monday epoch, 8 mod 7 = 1): exactly
SaturdayHoliday is active — never Saturday, a weekday name, or both. -/
theorem calendarResolutionExact_witness :
    "SaturdayHoliday" ∈ activeServices ["Saturday", "SaturdayHoliday"] [8] [] 8 ∧
    activeServices ["Saturday", "SaturdayHoliday"] [8] [] 8 = ["SaturdayHoliday"] ∧
    effectiveWeekday [8] 8 = -1 ∧ (8 : Nat) % 7 = 1 := by
  have h := calendarResolutionExact ["Saturday", "SaturdayHoliday"] [8] [] 8
  exact ⟨((h.2.2 (by decide)).1 "SaturdayHoliday").mpr
    ⟨["Holiday"], ["Everyday"], by decide, by decide, by decide⟩,
    by decide, h.1 (by decide), by decide⟩

end CalendarHandler

/-! ### C2: stop-time normalization -/

theorem rollForward_stop (threshold x : Int) (h : ¬x < threshold) :
    Odpt.rollForward threshold x = x := by
  rw [Odpt.rollForward]
  simp [h]

theorem rollForward_step (threshold x : Int) (h : x < threshold) :
    Odpt.rollForward threshold x = Odpt.rollForward threshold (x + 86400) := by
  rw [Odpt.rollForward]
  simp [h]

/-- C2 (evaluation at the failing input): for the trip with stop times
04:00 then 03:30 (both at or past the 03:00 cutoff), the stop-time loop of
`load_schedules.py` emits the second arrival (12600 s) strictly before the
first departure (14400 s): `previous_dep` is initialized but never
reassigned, so the roll-forward-past-the-previous-departure rule never
fires and the output is not monotone. The `odpt.py` provider's loop — the
claim's other source, which does update `prev_dep` — rolls the same second
entry forward by exactly one day, as the claim describes. -/
theorem stopTimeNormalizationNotMonotone :
    (∃ e₁ e₂, LoadSchedules.loadStopTimes
        [(some 14400, some 14400), (some 12600, some 12600)] = [e₁, e₂] ∧
      e₂.2.1 < e₁.2.2) ∧
    Odpt.fixTimetable 0 [(14400, 14400), (12600, 12600)] =
      [(14400, 14400), (12600 + 86400, 12600 + 86400)] := by
  constructor
  · exact ⟨(0, 14400, 14400), (1, 12600, 12600), by decide, by decide⟩
  · simp only [Odpt.fixTimetable]
    norm_num
    rw [rollForward_stop 0 14400 (by norm_num)]
    rw [rollForward_stop 14400 14400 (by norm_num)]
    rw [rollForward_step 14400 12600 (by norm_num)]
    norm_num
    rw [rollForward_stop 14400 99000 (by norm_num)]
    rw [rollForward_step 99000 12600 (by norm_num)]
    norm_num
    rw [rollForward_stop 99000 99000 (by norm_num)]

end TokyoGTFS
